import Mathlib

/-!
Verification of the repeated-block detection and pruning engine of the
PDFs-Comparison-with-LLM repository.

The engine lives in `src/pdf_to_json_redundancy_removed_report.py` (function
`remove_repeated_blocks` and its helpers) with a report-free twin in
`src/pdf_to_json_redundancy_removed.py`.  The definitions below are a shallow
embedding of that Python code: Python floats are modelled as rationals,
Python strings as Lean strings (ASCII whitespace/digit classes), Python
`bytes` as `List Nat`, and dict-based grouping as key-fiber functions (a
block's group is exactly the fiber of its key, which is what the
`defaultdict` loops compute).
-/

set_option maxRecDepth 8000

namespace PdfRedundancy

/-! ### Python character classes and primitive string operations -/

/-- ASCII part of Python's `\s` class (str.strip / `re.sub(r'\s+', ...)`). -/
def pyIsSpace (c : Char) : Bool :=
  c = ' ' || c = '\t' || c = '\n' || c = '\r' || c = '\x0b' || c = '\x0c'

/-- ASCII part of Python's `\d` class. -/
def pyIsDigit (c : Char) : Bool :=
  '0' ≤ c && c ≤ '9'

/-- ASCII lowercasing, as used by `str.lower()` on the texts involved here. -/
def asciiLower (c : Char) : Char :=
  if 'A' ≤ c && c ≤ 'Z' then Char.ofNat (c.toNat + 32) else c

/-- Python `str.strip()`: drop whitespace from both ends. -/
def pyStrip (xs : List Char) : List Char :=
  ((xs.dropWhile pyIsSpace).reverse.dropWhile pyIsSpace).reverse

/-- One pass of `re.sub(r'\s+', ' ', s)`: each maximal whitespace run becomes a
single space.  `prevWs` records whether the previous character was whitespace
(so continuation characters of a run emit nothing). -/
def collapseAux (prevWs : Bool) : List Char → List Char
  | [] => []
  | c :: cs =>
    if pyIsSpace c then
      (if prevWs then collapseAux true cs else ' ' :: collapseAux true cs)
    else c :: collapseAux false cs

/-- `re.sub(r'\s+', ' ', s)`. -/
def collapseWs (xs : List Char) : List Char := collapseAux false xs

/-- `re.sub(r'\d+', '', s)`: deleting every maximal digit run is deleting every
digit character. -/
def removeDigitRuns (xs : List Char) : List Char :=
  xs.filter (fun c => !(pyIsDigit c))

/-- `_normalize_text` from the source: strip, optionally lowercase, collapse
whitespace runs, optionally delete digit runs, strip again.  The engine never
passes `None`, so the `s is None` guard is dropped. -/
def normalize_text (s : String) (removeDigits : Bool := true)
    (caseSensitive : Bool := true) : String :=
  let l := pyStrip s.data
  let l := if caseSensitive then l else l.map asciiLower
  let l := collapseWs l
  let l := if removeDigits then removeDigitRuns l else l
  String.mk (pyStrip l)

/-! ### Claim C7: digit-invariance of the normalized-text fingerprint

Two strings are "identical except for the digit runs they contain" when they
decompose into the same non-digit characters with corresponding (non-empty)
digit runs substituted, as in the spec's example `"Page 3"` / `"Page 4"`. -/

/-- Strings identical except for substitution of corresponding non-empty digit
runs. -/
inductive DigitEquiv : List Char → List Char → Prop
  | nil : DigitEquiv [] []
  | cons {c : Char} {xs ys : List Char} :
      ¬ pyIsDigit c = true → DigitEquiv xs ys → DigitEquiv (c :: xs) (c :: ys)
  | run {d₁ d₂ xs ys : List Char} :
      d₁ ≠ [] → d₂ ≠ [] →
      (∀ c ∈ d₁, pyIsDigit c = true) → (∀ c ∈ d₂, pyIsDigit c = true) →
      DigitEquiv xs ys → DigitEquiv (d₁ ++ xs) (d₂ ++ ys)

theorem DigitEquiv.append {a b c d : List Char}
    (h₁ : DigitEquiv a b) (h₂ : DigitEquiv c d) : DigitEquiv (a ++ c) (b ++ d) := by
  induction h₁ with
  | nil => simpa using h₂
  | cons hc _ ih => exact DigitEquiv.cons hc ih
  | run hd₁ hd₂ hdig₁ hdig₂ _ ih =>
    rw [List.append_assoc, List.append_assoc]
    exact DigitEquiv.run hd₁ hd₂ hdig₁ hdig₂ ih

/-- A digit character is not a whitespace character. -/
theorem digit_not_space {c : Char} (h : pyIsDigit c = true) : pyIsSpace c = false := by
  simp only [pyIsDigit, Bool.and_eq_true, decide_eq_true_eq] at h
  obtain ⟨h1, _⟩ := h
  have hgt : ∀ d : Char, d < '0' → c ≠ d := fun d hd he =>
    absurd (he ▸ h1) (not_le.mpr hd)
  simp only [pyIsSpace, Bool.or_eq_false_iff, decide_eq_false_iff_not]
  exact ⟨⟨⟨⟨⟨hgt ' ' (by decide), hgt '\t' (by decide)⟩, hgt '\n' (by decide)⟩,
    hgt '\r' (by decide)⟩, hgt '\x0b' (by decide)⟩, hgt '\x0c' (by decide)⟩

theorem DigitEquiv.reverse {a b : List Char}
    (h : DigitEquiv a b) : DigitEquiv a.reverse b.reverse := by
  induction h with
  | nil => exact DigitEquiv.nil
  | cons hc _ ih =>
    simpa using ih.append (DigitEquiv.cons hc DigitEquiv.nil)
  | run hd₁ hd₂ hdig₁ hdig₂ _ ih =>
    rename_i d₁ d₂ xs ys _
    have hr : DigitEquiv d₁.reverse d₂.reverse := by
      have := @DigitEquiv.run d₁.reverse d₂.reverse [] []
        (by simp [hd₁]) (by simp [hd₂])
        (fun c hc => hdig₁ c (List.mem_reverse.mp hc))
        (fun c hc => hdig₂ c (List.mem_reverse.mp hc)) DigitEquiv.nil
      simpa using this
    rw [List.reverse_append, List.reverse_append]
    exact ih.append hr

theorem DigitEquiv.dropWhile_space {a b : List Char}
    (h : DigitEquiv a b) :
    DigitEquiv (a.dropWhile pyIsSpace) (b.dropWhile pyIsSpace) := by
  induction h with
  | nil => exact DigitEquiv.nil
  | cons hc h ih =>
    by_cases hs : pyIsSpace ‹Char› = true
    · simpa [List.dropWhile_cons, hs] using ih
    · simpa [List.dropWhile_cons, hs] using DigitEquiv.cons hc h
  | run hd₁ hd₂ hdig₁ hdig₂ h =>
    rename_i d₁ d₂ xs ys _
    have hsp : ∀ (d : List Char), (∀ c ∈ d, pyIsDigit c = true) → d ≠ [] →
        ∀ (zs : List Char), (d ++ zs).dropWhile pyIsSpace = d ++ zs := by
      intro d hd hne zs
      match d, hne with
      | c :: d', _ =>
        have hcs : pyIsSpace c = false := digit_not_space (hd c (by simp))
        simp [List.dropWhile_cons, hcs]
    rw [hsp d₁ hdig₁ hd₁ xs, hsp d₂ hdig₂ hd₂ ys]
    exact DigitEquiv.run hd₁ hd₂ hdig₁ hdig₂ h

theorem DigitEquiv.pyStrip {a b : List Char}
    (h : DigitEquiv a b) : DigitEquiv (pyStrip a) (pyStrip b) :=
  ((h.dropWhile_space).reverse.dropWhile_space).reverse

/-- `collapseAux` emits an all-non-whitespace non-empty prefix verbatim and
continues in the "previous char not whitespace" state. -/
theorem collapseAux_append_nonspace (d : List Char)
    (hd : ∀ c ∈ d, pyIsSpace c = false) (hne : d ≠ []) (st : Bool)
    (zs : List Char) :
    collapseAux st (d ++ zs) = d ++ collapseAux false zs := by
  induction d generalizing st with
  | nil => simp_all
  | cons c d' ih =>
    have hc : pyIsSpace c = false := hd c (by simp)
    have hstep : ∀ ws, collapseAux st (c :: ws) = c :: collapseAux false ws := by
      intro ws; simp [collapseAux, hc]
    by_cases hne' : d' = []
    · subst hne'; simpa using hstep zs
    · calc collapseAux st (c :: d' ++ zs)
          = collapseAux st (c :: (d' ++ zs)) := by simp
        _ = c :: collapseAux false (d' ++ zs) := hstep _
        _ = c :: (d' ++ collapseAux false zs) := by
            rw [ih (fun x hx => hd x (by simp [hx])) hne' false]
        _ = (c :: d') ++ collapseAux false zs := by simp

theorem DigitEquiv.collapseAux {a b : List Char} (st : Bool)
    (h : DigitEquiv a b) :
    DigitEquiv (collapseAux st a) (collapseAux st b) := by
  induction h generalizing st with
  | nil => exact DigitEquiv.nil
  | cons hc _ ih =>
    rename_i c xs ys _
    by_cases hs : pyIsSpace c = true
    · cases st with
      | false =>
        simpa [PdfRedundancy.collapseAux, hs] using
          DigitEquiv.cons (c := ' ') (by simp [pyIsDigit]) (ih true)
      | true => simpa [PdfRedundancy.collapseAux, hs] using ih true
    · simpa [PdfRedundancy.collapseAux, hs] using DigitEquiv.cons hc (ih false)
  | run hd₁ hd₂ hdig₁ hdig₂ _ ih =>
    rename_i d₁ d₂ xs ys _
    have hns : ∀ (d : List Char), (∀ c ∈ d, pyIsDigit c = true) →
        ∀ c ∈ d, pyIsSpace c = false := fun d hd c hc => digit_not_space (hd c hc)
    rw [collapseAux_append_nonspace d₁ (hns d₁ hdig₁) hd₁ st,
        collapseAux_append_nonspace d₂ (hns d₂ hdig₂) hd₂ st]
    exact DigitEquiv.run hd₁ hd₂ hdig₁ hdig₂ (ih false)

theorem DigitEquiv.removeDigitRuns {a b : List Char}
    (h : DigitEquiv a b) : removeDigitRuns a = removeDigitRuns b := by
  induction h with
  | nil => rfl
  | cons hc _ ih =>
    rename_i c xs ys _
    simp only [PdfRedundancy.removeDigitRuns, List.filter_cons] at *
    simp [Bool.not_eq_true'] at hc
    simp [hc, ih]
  | run hd₁ hd₂ hdig₁ hdig₂ _ ih =>
    rename_i d₁ d₂ xs ys _
    have hall : ∀ (d : List Char), (∀ c ∈ d, pyIsDigit c = true) →
        PdfRedundancy.removeDigitRuns d = [] := by
      intro d hd
      simp only [PdfRedundancy.removeDigitRuns, List.filter_eq_nil_iff]
      intro c hc
      simp [hd c hc]
    simp only [PdfRedundancy.removeDigitRuns, List.filter_append] at *
    rw [hall d₁ hdig₁, hall d₂ hdig₂]
    simp [ih]

/-- Claim C7: two strings identical except for (non-empty) digit-run
substitutions — e.g. `"Page 3"` vs `"Page 4"` — have equal `_normalize_text`
fingerprints when `remove_digits=True` (with the engine's `case_sensitive`
default). -/
theorem c7_digit_invariance (s t : String)
    (h : DigitEquiv s.data t.data) :
    normalize_text s true true = normalize_text t true true := by
  unfold normalize_text
  simp only [if_true]
  have h1 : DigitEquiv (pyStrip s.data) (pyStrip t.data) := h.pyStrip
  have h2 := h1.collapseAux false
  have h3 := h2.removeDigitRuns
  rw [collapseWs, collapseWs, h3]

/-- Witness for C7 at the spec's own example. -/
theorem c7_digit_invariance_witness :
    DigitEquiv "Page 3".data "Page 4".data ∧
      normalize_text "Page 3" true true = normalize_text "Page 4" true true := by
  have h : DigitEquiv "Page 3".data "Page 4".data := by
    show DigitEquiv ['P', 'a', 'g', 'e', ' ', '3'] ['P', 'a', 'g', 'e', ' ', '4']
    refine DigitEquiv.cons (by decide) ?_
    refine DigitEquiv.cons (by decide) ?_
    refine DigitEquiv.cons (by decide) ?_
    refine DigitEquiv.cons (by decide) ?_
    refine DigitEquiv.cons (by decide) ?_
    exact @DigitEquiv.run ['3'] ['4'] [] []
      (by decide) (by decide) (by decide) (by decide) DigitEquiv.nil
  exact ⟨h, c7_digit_invariance _ _ h⟩

/-! ### Base64 (Python `base64.b64decode` / `b64encode`)

`b64decode` with `validate=False` (the default used by the source) runs
CPython's non-strict `binascii.a2b_base64` loop: characters outside the
alphabet are skipped; each full quad of data characters emits three bytes and
resets the pad count; a `'='` seen with fewer than two data characters pending
is skipped outright; a `'='` seen with two or three pending data characters
increments the pad count, and as soon as pending-count plus pad-count reaches
four the partial quad is flushed and decoding STOPS, ignoring the rest of the
input (so `b64decode(b"YQ==YWJj") == b"a"`), while otherwise scanning simply
continues with the pending quad retained (so a lone `'='` between data
characters is skipped, not flushed: `b64decode(b"YQ=AB") == b"a\x00\x01"`);
when the data runs out mid-quad the call raises: one leftover data character
is an invalid length, two or three (even after unfulfilled pads, as in
`b"YQ="`) is "Incorrect padding". -/

/-- Index of a character in the standard base64 alphabet. -/
def b64Index (c : Char) : Option Nat :=
  if 'A' ≤ c && c ≤ 'Z' then some (c.toNat - 65)
  else if 'a' ≤ c && c ≤ 'z' then some (c.toNat - 97 + 26)
  else if '0' ≤ c && c ≤ '9' then some (c.toNat - 48 + 52)
  else if c = '+' then some 62
  else if c = '/' then some 63
  else none

/-- Emit the bytes encoded by a (possibly partial) base64 quad of 6-bit
values. -/
def b64Quad : List Nat → List Nat
  | [a, b] => [a * 4 + b / 16]
  | [a, b, c] => [a * 4 + b / 16, (b % 16) * 16 + c / 4]
  | [a, b, c, d] => [a * 4 + b / 16, (b % 16) * 16 + c / 4, (c % 4) * 64 + d]
  | _ => []

/-- Core decoding loop over the characters: `acc` is the pending quad of 6-bit
values (binascii's `quad_pos` and carried bits) and `pads` counts the `'='`
characters seen since the last data character with the quad pending.
Mirrors the non-strict loop of CPython `binascii.a2b_base64`: on `'='` with at
least two pending values the pad count rises and, once pending-count plus
pad-count reaches four, the partial quad is flushed and decoding stops
(remaining input ignored); an earlier `'='` is skipped with the pending quad
retained; each data character resets `pads` to zero; invalid characters are
skipped leaving `pads` alone; leftover pending values at the end of the input
raise. -/
def b64Aux : List Char → List Nat → Nat → Except String (List Nat)
  | [], acc, _ =>
    if acc.length = 0 then .ok []
    else if acc.length = 1 then .error "binascii.Error: invalid length"
    else .error "binascii.Error: Incorrect padding"
  | c :: cs, acc, pads =>
    if c = '=' then
      if 2 ≤ acc.length then
        if 4 ≤ acc.length + (pads + 1) then .ok (b64Quad acc)
        else b64Aux cs acc (pads + 1)
      else b64Aux cs acc pads
    else
      match b64Index c with
      | some v =>
        if acc.length = 3 then
          match b64Aux cs [] 0 with
          | .ok rest => .ok (b64Quad (acc ++ [v]) ++ rest)
          | .error e => .error e
        else b64Aux cs (acc ++ [v]) 0
      | none => b64Aux cs acc pads

/-- `base64.b64decode` applied to a `str`: a non-ASCII string raises
`ValueError` (caught by the source's `except`), otherwise decode the
characters. -/
def pyB64DecodeStr (s : String) : Except String (List Nat) :=
  if s.data.all (fun c => c.toNat < 128) then b64Aux s.data [] 0
  else .error "ValueError: string argument should contain only ASCII characters"

/-- `base64.b64decode` applied to `bytes` (out-of-alphabet bytes are skipped
like any other invalid character). -/
def pyB64DecodeBytes (b : List Nat) : Except String (List Nat) :=
  b64Aux (b.map Char.ofNat) [] 0

/-- The standard base64 alphabet. -/
def b64EncTable : List Char :=
  "ABCDEFGHIJKLMNOPQRSTUVWXYZabcdefghijklmnopqrstuvwxyz0123456789+/".data

def b64EncChar (n : Nat) : Char := b64EncTable.getD n 'A'

/-- `base64.b64encode`, producing the canonical padded encoding. -/
def b64encode : List Nat → List Char
  | [] => []
  | [a] => [b64EncChar (a / 4), b64EncChar (a % 4 * 16), '=', '=']
  | [a, b] => [b64EncChar (a / 4), b64EncChar (a % 4 * 16 + b / 16),
      b64EncChar (b % 16 * 4), '=']
  | a :: b :: c :: rest =>
      b64EncChar (a / 4) :: b64EncChar (a % 4 * 16 + b / 16) ::
      b64EncChar (b % 16 * 4 + c / 64) :: b64EncChar (c % 64) :: b64encode rest

/-! ### UTF-8 encoding (Python `str.encode("utf-8")`) -/

/-- UTF-8 encoding of one code point. -/
def utf8Char (n : Nat) : List Nat :=
  if n < 128 then [n]
  else if n < 2048 then [192 + n / 64, 128 + n % 64]
  else if n < 65536 then [224 + n / 4096, 128 + n / 64 % 64, 128 + n % 64]
  else [240 + n / 262144, 128 + n / 4096 % 64, 128 + n / 64 % 64, 128 + n % 64]

/-- `s.encode("utf-8")` as a byte list. -/
def utf8Bytes (s : String) : List Nat :=
  (s.data.map (fun c => utf8Char c.toNat)).flatten

/-! ### SHA-256 (FIPS 180-4, as `hashlib.sha256`) -/

def w32 (n : Nat) : Nat := n % 4294967296

def rotr32 (n x : Nat) : Nat := (x >>> n) ||| w32 (x <<< (32 - n))

def bSig0 (x : Nat) : Nat := rotr32 2 x ^^^ rotr32 13 x ^^^ rotr32 22 x
def bSig1 (x : Nat) : Nat := rotr32 6 x ^^^ rotr32 11 x ^^^ rotr32 25 x
def sSig0 (x : Nat) : Nat := rotr32 7 x ^^^ rotr32 18 x ^^^ (x >>> 3)
def sSig1 (x : Nat) : Nat := rotr32 17 x ^^^ rotr32 19 x ^^^ (x >>> 10)

def sha256K : List Nat :=
  [1116352408, 1899447441, 3049323471, 3921009573, 961987163,
   1508970993, 2453635748, 2870763221, 3624381080, 310598401,
   607225278, 1426881987, 1925078388, 2162078206, 2614888103,
   3248222580, 3835390401, 4022224774, 264347078, 604807628,
   770255983, 1249150122, 1555081692, 1996064986, 2554220882,
   2821834349, 2952996808, 3210313671, 3336571891, 3584528711,
   113926993, 338241895, 666307205, 773529912, 1294757372,
   1396182291, 1695183700, 1986661051, 2177026350, 2456956037,
   2730485921, 2820302411, 3259730800, 3345764771, 3516065817,
   3600352804, 4094571909, 275423344, 430227734, 506948616,
   659060556, 883997877, 958139571, 1322822218, 1537002063,
   1747873779, 1955562222, 2024104815, 2227730452, 2361852424,
   2428436474, 2756734187, 3204031479, 3329325298]

def sha256H0 : List Nat :=
  [1779033703, 3144134277, 1013904242, 2773480762,
   1359893119, 2600822924, 528734635, 1541459225]

/-- Big-endian 8-byte encoding of the bit length. -/
def beBytes8 (n : Nat) : List Nat :=
  [n >>> 56 % 256, n >>> 48 % 256, n >>> 40 % 256, n >>> 32 % 256,
   n >>> 24 % 256, n >>> 16 % 256, n >>> 8 % 256, n % 256]

/-- SHA-256 message padding to a multiple of 64 bytes. -/
def sha256Pad (ms : List Nat) : List Nat :=
  ms ++ [128] ++ List.replicate ((119 - ms.length % 64) % 64) 0 ++
    beBytes8 (8 * ms.length)

/-- Big-endian 32-bit words from bytes. -/
def bytesToWords : List Nat → List Nat
  | a :: b :: c :: d :: rest => (((a * 256 + b) * 256 + c) * 256 + d) :: bytesToWords rest
  | _ => []

/-- Message-schedule extension: add `fuel` further words. -/
def sha256Extend : Nat → List Nat → List Nat
  | 0, w => w
  | n + 1, w =>
    let t := w.length
    let nw := w32 (sSig1 (w.getD (t - 2) 0) + w.getD (t - 7) 0 +
      sSig0 (w.getD (t - 15) 0) + w.getD (t - 16) 0)
    sha256Extend n (w ++ [nw])

/-- One compression round; the state is `[a,b,c,d,e,f,g,h]` and `kw` is
`K[t] + W[t] (mod 2³²)`. -/
def sha256Round (st : List Nat) (kw : Nat) : List Nat :=
  match st with
  | [a, b, c, d, e, f, g, h] =>
    let ch := (e &&& f) ^^^ ((4294967295 ^^^ e) &&& g)
    let t1 := w32 (h + bSig1 e + ch + kw)
    let maj := (a &&& b) ^^^ (a &&& c) ^^^ (b &&& c)
    let t2 := w32 (bSig0 a + maj)
    [w32 (t1 + t2), a, b, c, w32 (d + t1), e, f, g]
  | _ => st

/-- Process one 64-byte block. -/
def sha256Block (h : List Nat) (blockBytes : List Nat) : List Nat :=
  let w := sha256Extend 48 (bytesToWords blockBytes)
  let kws := (List.range 64).map (fun i => w32 (sha256K.getD i 0 + w.getD i 0))
  let st := kws.foldl sha256Round h
  (List.range 8).map (fun i => w32 (h.getD i 0 + st.getD i 0))

/-- Split into 64-byte chunks (fuel-driven; the input is always padded). -/
def chunks64Aux : Nat → List Nat → List (List Nat)
  | 0, _ => []
  | _, [] => []
  | n + 1, xs => xs.take 64 :: chunks64Aux n (xs.drop 64)

def chunks64 (xs : List Nat) : List (List Nat) := chunks64Aux xs.length xs

/-- SHA-256 digest bytes of a byte message. -/
def sha256Bytes (ms : List Nat) : List Nat :=
  let hh := (chunks64 (sha256Pad ms)).foldl sha256Block sha256H0
  (hh.map (fun wrd => [wrd >>> 24 % 256, wrd >>> 16 % 256, wrd >>> 8 % 256, wrd % 256])).flatten

def hexChar (n : Nat) : Char := "0123456789abcdef".data.getD n '0'

/-- `hashlib.sha256(b).hexdigest()`. -/
def sha256Hex (ms : List Nat) : String :=
  String.mk ((sha256Bytes ms).map (fun b => [hexChar (b / 16), hexChar (b % 16)])).flatten

/-- Known-answer check anchoring the SHA-256 model (FIPS 180-4 test vector
for `"abc"`). -/
theorem sha256_known_answer :
    sha256Hex [97, 98, 99] =
      "ba7816bf8f01cfea414140de5dae2223b00361a396177a9cb410ff61f20015ad" := by
  decide

/-! ### `_image_hash_from_base64` (claims C5, C6) -/

/-- `_image_hash_from_base64` as the engine actually calls it: payloads taken
from a JSON-parsed document are Python `str` values.  An empty string is falsy
(`None` result); otherwise SHA-256 of the base64-decoded bytes, falling back
to the UTF-8 encoding of the string when decoding fails (`.encode("utf-8")`
on a `str` cannot fail, so the `str` case never raises). -/
def image_hash_from_base64 (s : String) : Option String :=
  if s = "" then none
  else
    match pyB64DecodeStr s with
    | .ok b => some (sha256Hex b)
    | .error _ => some (sha256Hex (utf8Bytes s))

/-- A Python value that is either `bytes` or `str`: the two payload
representations the spec contemplates ("already-decoded vs. base64 string"). -/
inductive PyBytesOrStr where
  | bytes (b : List Nat)
  | str (s : String)
deriving DecidableEq

/-- `_image_hash_from_base64` on either payload representation, with Python's
exception behaviour explicit: when a `bytes` payload fails base64 decoding,
the fallback `base64_str.encode("utf-8")` itself raises `AttributeError`
(`bytes` has no `encode` method), and that exception escapes the `except`
handler to the caller. -/
def image_hash_from_base64_any : PyBytesOrStr → Except String (Option String)
  | .bytes b =>
    if b = [] then .ok none
    else
      match pyB64DecodeBytes b with
      | .ok d => .ok (some (sha256Hex d))
      | .error _ => .error "AttributeError: bytes has no attribute encode"
  | .str s =>
    if s = "" then .ok none
    else
      match pyB64DecodeStr s with
      | .ok d => .ok (some (sha256Hex d))
      | .error _ => .ok (some (sha256Hex (utf8Bytes s)))

/-! Auxiliary facts about the base64 model, used to settle C5. -/

theorem b64Index_encChar : ∀ v, v < 64 → b64Index (b64EncChar v) = some v := by
  decide

theorem b64EncChar_ascii (v : Nat) : (b64EncChar v).toNat < 128 := by
  by_cases h : v < 64
  · exact (by decide : ∀ v, v < 64 → (b64EncChar v).toNat < 128) v h
  · have : b64EncChar v = 'A' := by
      unfold b64EncChar
      exact List.getD_eq_default _ _ (by simp [b64EncTable]; omega)
    rw [this]; decide

theorem b64Aux_cons_val {c : Char} {v : Nat} (cs : List Char) (acc : List Nat)
    (p : Nat) (h : b64Index c = some v) :
    b64Aux (c :: cs) acc p =
      if acc.length = 3 then
        (match b64Aux cs [] 0 with
         | .ok rest => .ok (b64Quad (acc ++ [v]) ++ rest)
         | .error e => .error e)
      else b64Aux cs (acc ++ [v]) 0 := by
  have hne : c ≠ '=' := by
    intro e
    subst e
    rw [show b64Index '=' = none from by decide] at h
    exact Option.noConfusion h
  simp [b64Aux, hne, h]

theorem b64Aux_quad (v1 v2 v3 v4 : Nat) (h1 : v1 < 64) (h2 : v2 < 64)
    (h3 : v3 < 64) (h4 : v4 < 64) (cs : List Char) :
    b64Aux (b64EncChar v1 :: b64EncChar v2 :: b64EncChar v3 :: b64EncChar v4 :: cs) [] 0 =
      (match b64Aux cs [] 0 with
       | .ok rest => .ok (b64Quad [v1, v2, v3, v4] ++ rest)
       | .error e => .error e) := by
  rw [b64Aux_cons_val _ _ _ (b64Index_encChar _ h1), if_neg (by simp),
    show ([] : List Nat) ++ [v1] = [v1] from rfl]
  rw [b64Aux_cons_val _ _ _ (b64Index_encChar _ h2), if_neg (by simp),
    show [v1] ++ [v2] = [v1, v2] from rfl]
  rw [b64Aux_cons_val _ _ _ (b64Index_encChar _ h3), if_neg (by simp),
    show [v1, v2] ++ [v3] = [v1, v2, v3] from rfl]
  rw [b64Aux_cons_val _ _ _ (b64Index_encChar _ h4), if_pos (by simp),
    show [v1, v2, v3] ++ [v4] = [v1, v2, v3, v4] from rfl]

theorem b64Aux_pad2 (v1 v2 : Nat) (h1 : v1 < 64) (h2 : v2 < 64) :
    b64Aux [b64EncChar v1, b64EncChar v2, '=', '='] [] 0 = .ok (b64Quad [v1, v2]) := by
  rw [b64Aux_cons_val _ _ _ (b64Index_encChar _ h1), if_neg (by simp),
    show ([] : List Nat) ++ [v1] = [v1] from rfl]
  rw [b64Aux_cons_val _ _ _ (b64Index_encChar _ h2), if_neg (by simp),
    show [v1] ++ [v2] = [v1, v2] from rfl]
  simp [b64Aux]

theorem b64Aux_pad1 (v1 v2 v3 : Nat) (h1 : v1 < 64) (h2 : v2 < 64) (h3 : v3 < 64) :
    b64Aux [b64EncChar v1, b64EncChar v2, b64EncChar v3, '='] [] 0 =
      .ok (b64Quad [v1, v2, v3]) := by
  rw [b64Aux_cons_val _ _ _ (b64Index_encChar _ h1), if_neg (by simp),
    show ([] : List Nat) ++ [v1] = [v1] from rfl]
  rw [b64Aux_cons_val _ _ _ (b64Index_encChar _ h2), if_neg (by simp),
    show [v1] ++ [v2] = [v1, v2] from rfl]
  rw [b64Aux_cons_val _ _ _ (b64Index_encChar _ h3), if_neg (by simp),
    show [v1, v2] ++ [v3] = [v1, v2, v3] from rfl]
  simp [b64Aux]

/-- The four reference behaviours of non-strict `binascii.a2b_base64` around
`'='`, checked against CPython: a completing pad sequence stops decoding and
the remainder of the input is ignored; a lone `'='` between data characters
is skipped and the quad continues; an unfulfilled pad leaves leftover data
characters, which raise Incorrect padding. -/
theorem b64_padding_reference :
    pyB64DecodeStr "YQ==YWJj" = .ok [97] ∧
      pyB64DecodeStr "YQ==x" = .ok [97] ∧
      pyB64DecodeStr "YQ=AB" = .ok [97, 0, 1] ∧
      pyB64DecodeStr "YQ=" = .error "binascii.Error: Incorrect padding" :=
  ⟨rfl, rfl, rfl, rfl⟩

/-- Decoding inverts encoding on byte lists. -/
theorem b64_roundtrip : ∀ bs : List Nat, (∀ x ∈ bs, x < 256) →
    b64Aux (b64encode bs) [] 0 = .ok bs := by
  intro bs
  induction bs using b64encode.induct with
  | case1 => intro _; rfl
  | case2 a =>
    intro h
    have ha := h a (by simp)
    rw [show b64encode [a] = [b64EncChar (a / 4), b64EncChar (a % 4 * 16), '=', '=']
      from rfl]
    rw [b64Aux_pad2 _ _ (by omega) (by omega)]
    simp only [b64Quad, Except.ok.injEq, List.cons.injEq, and_true]
    omega
  | case3 a b =>
    intro h
    have ha := h a (by simp); have hb := h b (by simp)
    rw [show b64encode [a, b] = [b64EncChar (a / 4), b64EncChar (a % 4 * 16 + b / 16),
      b64EncChar (b % 16 * 4), '='] from rfl]
    rw [b64Aux_pad1 _ _ _ (by omega) (by omega) (by omega)]
    simp only [b64Quad, Except.ok.injEq, List.cons.injEq, and_true]
    constructor
    · omega
    · omega
  | case4 a b c rest ih =>
    intro h
    have ha := h a (by simp); have hb := h b (by simp); have hc := h c (by simp)
    have hrest : ∀ x ∈ rest, x < 256 := fun x hx => h x (by simp [hx])
    rw [show b64encode (a :: b :: c :: rest) = b64EncChar (a / 4) ::
      b64EncChar (a % 4 * 16 + b / 16) :: b64EncChar (b % 16 * 4 + c / 64) ::
      b64EncChar (c % 64) :: b64encode rest from rfl]
    rw [b64Aux_quad _ _ _ _ (by omega) (by omega) (by omega) (by omega)]
    rw [ih hrest]
    simp only [b64Quad, Except.ok.injEq, List.cons_append, List.nil_append,
      List.cons.injEq]
    exact ⟨by omega, by omega, by omega, trivial⟩

/-- Every character emitted by the encoder is ASCII. -/
theorem b64encode_ascii : ∀ bs : List Nat, ∀ c ∈ b64encode bs, c.toNat < 128 := by
  intro bs
  induction bs using b64encode.induct with
  | case1 => intro c hc; simp [b64encode] at hc
  | case2 a =>
    intro c hc
    simp only [b64encode, List.mem_cons, List.not_mem_nil, or_false] at hc
    rcases hc with rfl | rfl | rfl | rfl <;> first | exact b64EncChar_ascii _ | decide
  | case3 a b =>
    intro c hc
    simp only [b64encode, List.mem_cons, List.not_mem_nil, or_false] at hc
    rcases hc with rfl | rfl | rfl | rfl <;> first | exact b64EncChar_ascii _ | decide
  | case4 a b c rest ih =>
    intro x hx
    simp only [b64encode, List.mem_cons] at hx
    rcases hx with rfl | rfl | rfl | rfl | hx
    · exact b64EncChar_ascii _
    · exact b64EncChar_ascii _
    · exact b64EncChar_ascii _
    · exact b64EncChar_ascii _
    · exact ih x hx

theorem b64encode_ne_nil : ∀ bs : List Nat, bs ≠ [] → b64encode bs ≠ [] := by
  intro bs h
  match bs with
  | [a] => simp [b64encode]
  | [a, b] => simp [b64encode]
  | a :: b :: c :: rest => simp [b64encode]

theorem char_toNat_lt (c : Char) : c.toNat < 1114112 := by
  have h := c.valid
  unfold UInt32.isValidChar Nat.isValidChar at h
  have he : c.toNat = c.val.toNat := rfl
  rcases h with h | ⟨_, h⟩ <;> omega

theorem utf8Char_lt256 (n : Nat) (hn : n < 1114112) : ∀ x ∈ utf8Char n, x < 256 := by
  unfold utf8Char
  split
  · intro x hx; simp at hx; omega
  · split
    · intro x hx; simp at hx; rcases hx with rfl | rfl <;> omega
    · split
      · intro x hx; simp at hx; rcases hx with rfl | rfl | rfl <;> omega
      · intro x hx; simp at hx; rcases hx with rfl | rfl | rfl | rfl <;> omega

theorem utf8Bytes_lt256 (s : String) : ∀ x ∈ utf8Bytes s, x < 256 := by
  intro x hx
  simp only [utf8Bytes, List.mem_flatten, List.mem_map] at hx
  obtain ⟨l, ⟨c, _, rfl⟩, hxl⟩ := hx
  exact utf8Char_lt256 _ (char_toNat_lt c) x hxl

theorem utf8Char_ne_nil (n : Nat) : utf8Char n ≠ [] := by
  unfold utf8Char
  split
  · simp
  · split
    · simp
    · split <;> simp

theorem utf8Bytes_ne_nil {s : String} (h : s ≠ "") : utf8Bytes s ≠ [] := by
  have hd : s.data ≠ [] := by
    intro he
    apply h
    cases s
    simp_all
  match hs : s.data with
  | [] => exact absurd hs hd
  | c :: cs =>
    simp only [utf8Bytes, hs, List.map_cons, List.flatten_cons, ne_eq,
      List.append_eq_nil]
    intro ⟨h1, _⟩
    exact utf8Char_ne_nil _ h1

/-- Claim C5, counterexample: the payload bytes `b"abcd"` represented as the
already-decoded string `"abcd"` and as the base64 string `"YWJjZA=="` receive
different fingerprints, because the raw form `"abcd"` is itself decodable as
base64 and the function hashes its (unrelated) decoding. -/
theorem c5_counterexample :
    pyB64DecodeStr "YWJjZA==" = .ok (utf8Bytes "abcd") ∧
      image_hash_from_base64 "abcd" ≠ image_hash_from_base64 "YWJjZA==" := by
  constructor
  · rfl
  · decide

/-- Claim C5, amended: the two representations of a payload fingerprint
identically whenever the raw payload string is *not* itself decodable as
base64 (then both routes hash the same UTF-8 bytes); a raw payload that
accidentally decodes as base64 is hashed via that decoding instead. -/
theorem c5_amended (s : String) (hne : s ≠ "")
    (hfail : (pyB64DecodeStr s).isOk = false) :
    image_hash_from_base64 s =
      image_hash_from_base64 (String.mk (b64encode (utf8Bytes s))) := by
  have hlhs : image_hash_from_base64 s = some (sha256Hex (utf8Bytes s)) := by
    unfold image_hash_from_base64
    rw [if_neg hne]
    cases hd : pyB64DecodeStr s with
    | ok b => rw [hd] at hfail; simp [Except.isOk, Except.toBool] at hfail
    | error e => rfl
  have hEne : String.mk (b64encode (utf8Bytes s)) ≠ "" := by
    intro he
    have : b64encode (utf8Bytes s) = [] := congrArg String.data he
    exact b64encode_ne_nil _ (utf8Bytes_ne_nil hne) this
  have hdec : pyB64DecodeStr (String.mk (b64encode (utf8Bytes s))) =
      .ok (utf8Bytes s) := by
    unfold pyB64DecodeStr
    rw [if_pos]
    · exact b64_roundtrip _ (utf8Bytes_lt256 s)
    · simp only [List.all_eq_true, decide_eq_true_eq]
      exact fun c hc => b64encode_ascii _ c hc
  rw [hlhs]
  unfold image_hash_from_base64
  rw [if_neg hEne, hdec]

/-- Witness for C5's amended theorem at a concrete undecodable payload. -/
theorem c5_amended_witness :
    (("hello world!" : String) ≠ "" ∧ (pyB64DecodeStr "hello world!").isOk = false) ∧
      image_hash_from_base64 "hello world!" =
        image_hash_from_base64 (String.mk (b64encode (utf8Bytes "hello world!"))) :=
  ⟨⟨by decide, by decide⟩, c5_amended "hello world!" (by decide) (by decide)⟩

/-- Claim C6: a `bytes` payload that fails base64 decoding (here the PNG magic
prefix `b"\x89PNG"`: the non-alphabet byte `0x89` is skipped and the three
leftover characters are an incorrect padding) makes `_image_hash_from_base64`
raise `AttributeError` out of its own `except` handler, contradicting "no
input makes it raise to the caller". -/
theorem c6_bytes_payload_raises :
    image_hash_from_base64_any (.bytes [137, 80, 78, 71]) =
      .error "AttributeError: bytes has no attribute encode" ∧
      (∀ s : String, (image_hash_from_base64_any (.str s)).isOk = true) := by
  constructor
  · rfl
  · intro s
    simp only [image_hash_from_base64_any]
    by_cases h : s = ""
    · simp [h, Except.isOk, Except.toBool]
    · rw [if_neg h]
      cases pyB64DecodeStr s <;> simp [Except.isOk, Except.toBool]

/-! ### Regex matchers used by `_normalize_text_pattern` and `_has_page_pattern`

The three regexes involved (`page\s+\d+\s+of\s+\d+`, `page\s+\d+`,
`\d+\s+of\s+\d+`) alternate disjoint character classes, so greedy maximal-run
matching with no backtracking is exact. -/

/-- Case-insensitive literal match; returns the remaining input. -/
def ciMatch : List Char → List Char → Option (List Char)
  | [], xs => some xs
  | _ :: _, [] => none
  | l :: ls, x :: xs => if asciiLower x = asciiLower l then ciMatch ls xs else none

/-- Greedy match of one or more characters of a class; returns the rest. -/
def takeRun (p : Char → Bool) : List Char → Option (List Char)
  | [] => none
  | x :: xs => if p x then some (xs.dropWhile p) else none

/-- `page\s+\d+\s+of\s+\d+` (case-insensitive), anchored at the head. -/
def matchPageOf (xs : List Char) : Option (List Char) :=
  (ciMatch "page".data xs).bind fun r1 =>
  (takeRun pyIsSpace r1).bind fun r2 =>
  (takeRun pyIsDigit r2).bind fun r3 =>
  (takeRun pyIsSpace r3).bind fun r4 =>
  (ciMatch "of".data r4).bind fun r5 =>
  (takeRun pyIsSpace r5).bind fun r6 =>
  takeRun pyIsDigit r6

/-- `page\s+\d+` (case-insensitive), anchored at the head. -/
def matchPageN (xs : List Char) : Option (List Char) :=
  (ciMatch "page".data xs).bind fun r1 =>
  (takeRun pyIsSpace r1).bind fun r2 =>
  takeRun pyIsDigit r2

/-- `\d+\s+of\s+\d+`, anchored at the head. -/
def matchNumOf (xs : List Char) : Option (List Char) :=
  (takeRun pyIsDigit xs).bind fun r1 =>
  (takeRun pyIsSpace r1).bind fun r2 =>
  (ciMatch "of".data r2).bind fun r3 =>
  (takeRun pyIsSpace r3).bind fun r4 =>
  takeRun pyIsDigit r4

/-- `re.sub` with a head-anchored matcher: leftmost, non-overlapping.  Each
successful match consumes at least one character, so fuel equal to the input
length is always sufficient. -/
def substAux (m : List Char → Option (List Char)) (repl : List Char) :
    Nat → List Char → List Char
  | 0, xs => xs
  | _ + 1, [] => []
  | n + 1, c :: cs =>
    match m (c :: cs) with
    | some rest => repl ++ substAux m repl n rest
    | none => c :: substAux m repl n cs

def subst (m : List Char → Option (List Char)) (repl : List Char)
    (xs : List Char) : List Char :=
  substAux m repl xs.length xs

/-- `re.search`: does the matcher succeed at any position? -/
def searchM (m : List Char → Option (List Char)) : List Char → Bool
  | [] => (m []).isSome
  | c :: cs => (m (c :: cs)).isSome || searchM m cs

/-- `_normalize_text_pattern`: strip, optionally lowercase, collapse
whitespace, canonicalize `page N of M` then `page N` (case-insensitively),
replace remaining digit runs by `X`, strip. -/
def normalize_text_pattern (s : String) (caseSensitive : Bool := true) : String :=
  let l := pyStrip s.data
  let l := if caseSensitive then l else l.map asciiLower
  let l := collapseWs l
  let l := subst matchPageOf "page X of Y".data l
  let l := subst matchPageN "page X".data l
  let l := subst (takeRun pyIsDigit) "X".data l
  String.mk (pyStrip l)

/-- `_has_page_pattern`: lowercase the text and search the three page-number
regexes. -/
def has_page_pattern (s : String) : Bool :=
  let l := s.data.map asciiLower
  searchM matchPageOf l || searchM matchPageN l || searchM matchNumOf l

/-! ### Data model

The engine reads exactly these parts of the JSON structure produced by the
extraction step: the ordered pages, each page's ordered blocks, a block's
`type`, `bbox`, `lines` (with `spans` carrying `text`), and the image payload
under `image` / `image_bytes`.  A span's text is stored after the source's
`span.get("text", "") or ""` coalescing (absent or `None` becomes `""`);
fields the engine never reads (fonts, sizes, span/line bboxes, …) are
carried by the enclosing block only through `copy.deepcopy` and are omitted
from the model. -/

structure Span where
  text : String
deriving DecidableEq

structure Line where
  spans : List Span
deriving DecidableEq

structure Block where
  type : Option Int
  bbox : List ℚ
  lines : List Line
  image : Option String
  image_bytes : Option String
deriving DecidableEq

structure Page where
  page_number : Int
  width : ℚ
  height : ℚ
  blocks : List Block
deriving DecidableEq

structure Document where
  pages : List Page
deriving DecidableEq

def spansOf (b : Block) : List Span := (b.lines.map Line.spans).flatten

/-- `_concat_block_text`: concatenate all span texts, then strip. -/
def concat_block_text (b : Block) : String :=
  String.mk (pyStrip ((spansOf b).map (fun sp => sp.text.data)).flatten)

/-- `_get_non_empty_text_spans`: stripped texts of spans whose text is not
whitespace-only. -/
def get_non_empty_text_spans (b : Block) : List String :=
  (spansOf b).filterMap fun sp =>
    let t := pyStrip sp.text.data
    if t = [] then none else some (String.mk t)

/-- `_is_mostly_empty_block`. -/
def is_mostly_empty_block (b : Block) (emptyThr : ℚ) : Bool :=
  let spans := spansOf b
  let total := spans.length
  let empty := (spans.filter fun sp => (pyStrip sp.text.data).isEmpty).length
  if total = 0 then true
  else decide (((empty : ℚ) / (total : ℚ)) ≥ emptyThr)

/-- Substring containment on character lists (Python `word in text`). -/
def listContainsSub (needle : List Char) : List Char → Bool
  | [] => needle.isEmpty
  | c :: cs => needle.isPrefixOf (c :: cs) || listContainsSub needle cs

/-- `_is_header_footer_block`. -/
def is_header_footer_block (b : Block) : Bool :=
  let text := concat_block_text b
  let lower := text.data.map asciiLower
  let hasPageInfo := has_page_pattern text
  let wordList := ["page", "initial", "date", "signature", "confidential", "draft"]
  let hasWords := wordList.any fun w => listContainsSub w.data lower
  let nonEmpty := (get_non_empty_text_spans b).length
  let totalSpans := (b.lines.map fun ln => ln.spans.length).sum
  (hasPageInfo || hasWords) && (decide (1 ≤ nonEmpty) && decide (nonEmpty < totalSpans))

/-! ### Similarity -/

/-- Longest-common-subsequence length. -/
def lcsLen : List Char → List Char → Nat
  | [], _ => 0
  | _ :: _, [] => 0
  | a :: as, b :: bs =>
    if a = b then 1 + lcsLen as bs
    else max (lcsLen (a :: as) bs) (lcsLen as (b :: bs))
termination_by xs ys => xs.length + ys.length

/-- Modelled from difflib: `SequenceMatcher(None, a, b).ratio()` is
`2*M / (len(a)+len(b))` with `M` the total matched size; `M` is modelled as
the longest-common-subsequence length.  The development relies only on facts
true of difflib as well: equal strings have similarity `1`. -/
def seqSim (a b : String) : ℚ :=
  2 * (lcsLen a.data b.data : ℚ) / ((a.length : ℚ) + (b.length : ℚ))

/-- `statistics.median`. -/
def medianQ (l : List ℚ) : ℚ :=
  let s := l.insertionSort (· ≤ ·)
  if l.length = 0 then 0
  else if l.length % 2 = 1 then s.getD (l.length / 2) 0
  else (s.getD (l.length / 2 - 1) 0 + s.getD (l.length / 2) 0) / 2

/-- `itertools.combinations(strs, 2)` in order. -/
def listPairs {α : Type} : List α → List (α × α)
  | [] => []
  | x :: xs => (xs.map fun y => (x, y)) ++ listPairs xs

/-- `_median_pairwise_similarity` (its inputs here are always strings, so the
`s is not None` filter keeps everything). -/
def median_pairwise_similarity (strs : List String) : ℚ :=
  if strs.length ≤ 1 then 1
  else
    let sims := (listPairs strs).map fun ab =>
      if ab.1 = "" ∧ ab.2 = "" then 1 else seqSim ab.1 ab.2
    if sims = [] then 1 else medianQ sims

/-! ### Keys, fibers and the marking rules of `remove_repeated_blocks`

The Python code buckets instances into `defaultdict` groups; a block's group
under a keying function is exactly the fiber of its key over all `(page,
block)` pairs, and a block is marked by a rule iff its fiber satisfies that
rule's conditions (each rule marks all instances of a qualifying fiber). -/

/-- Python `round` (banker's rounding, half to even) composed with `int`. -/
def pyRound (q : ℚ) : Int :=
  let f := ⌊q⌋
  let r := q - (f : ℚ)
  if r < 1 / 2 then f
  else if 1 / 2 < r then f + 1
  else if f % 2 = 0 then f else f + 1

/-- Quantized bbox: sentinel `(0,0,0,0)` for a missing or malformed bbox,
otherwise each coordinate rounded after division by the tolerance. -/
def quantBBox (tol : ℚ) (bbox : List ℚ) : List Int :=
  if bbox = [] ∨ bbox.length ≠ 4 then [0, 0, 0, 0]
  else bbox.map fun c => pyRound (c / tol)

/-- `block.get("image") or block.get("image_bytes") or ""`. -/
def effImage (b : Block) : String :=
  if b.image.getD "" ≠ "" then b.image.getD "" else b.image_bytes.getD ""

/-- The content fingerprint component of the exact group key. -/
def contentKey (b : Block) : Option String :=
  if b.type = some 0 then some (normalize_text (concat_block_text b) true true)
  else if b.type = some 1 then image_hash_from_base64 (effImage b)
  else none

/-- The exact group key `(type, quantized bbox, content fingerprint)`. -/
def exactKey (tol : ℚ) (b : Block) : Option Int × List Int × Option String :=
  (b.type, quantBBox tol b.bbox, contentKey b)

/-- `_create_content_pattern_key`. -/
def pattern_key (b : Block) : String :=
  "pattern:" ++ normalize_text_pattern (concat_block_text b) true ++
    "|spans:" ++ toString (get_non_empty_text_spans b).length ++
    "|lines:" ++ toString b.lines.length

/-- All `(page index, block index, block)` triples of a document, in
iteration order. -/
def docBlocks (d : Document) : List (Nat × Nat × Block) :=
  (d.pages.enum.map fun pp =>
    pp.2.blocks.enum.map fun bb => (pp.1, bb.1, bb.2)).flatten

/-- `total_pages = max(1, len(pages))`. -/
def totalPages (d : Document) : Nat := max 1 d.pages.length

/-- Presence ratio of an instance list: distinct pages over total pages. -/
def presenceFrac (d : Document) (insts : List (Nat × Nat × Block)) : ℚ :=
  (((insts.map fun t => t.1).dedup.length : ℚ)) / ((totalPages d : ℚ))

/-- The exact group of a key. -/
def exactFiber (d : Document) (tol : ℚ)
    (k : Option Int × List Int × Option String) : List (Nat × Nat × Block) :=
  (docBlocks d).filter fun t => exactKey tol t.2.2 = k

/-- The pattern group of a pattern key (text blocks only). -/
def patternFiber (d : Document) (k : String) : List (Nat × Nat × Block) :=
  (docBlocks d).filter fun t => t.2.2.type = some 0 && pattern_key t.2.2 = k

/-- The block-index group of an index (mostly-empty text blocks only). -/
def indexFiber (d : Document) (emptyThr : ℚ) (bi : Nat) : List (Nat × Nat × Block) :=
  (docBlocks d).filter fun t =>
    t.2.2.type = some 0 && t.2.1 = bi && is_mostly_empty_block t.2.2 emptyThr

/-- The text-group removal decision of the exact rule (`should_remove`),
including the third `content_key.startswith("header_footer_")` branch. -/
def shouldRemoveTextGroup (tst pst : ℚ) (ck : String)
    (insts : List (Nat × Nat × Block)) : Bool :=
  let texts := insts.map fun t => normalize_text (concat_block_text t.2.2) true true
  let pats := insts.map fun t => normalize_text_pattern (concat_block_text t.2.2) true
  let medianSim := median_pairwise_similarity texts
  let patternSim := median_pairwise_similarity pats
  let pagePat := insts.map fun t => has_page_pattern (concat_block_text t.2.2)
  let hf := insts.map fun t => is_header_footer_block t.2.2
  decide (medianSim ≥ tst) ||
    (decide (patternSim ≥ pst) && (pagePat.any id || hf.any id)) ||
    (!(ck = "") && ck.startsWith "header_footer_" && decide (patternSim ≥ 3 / 5))

def blockAt (d : Document) (p b : Nat) : Option Block :=
  (d.pages.get? p).bind fun pg => pg.blocks.get? b

/-- Marking by the first rule (repeated mostly-empty blocks at the same
block index). -/
def markedEmptyAt (d : Document) (ethr ppt : ℚ) (p b : Nat) : Bool :=
  match blockAt d p b with
  | none => false
  | some blk =>
    blk.type = some 0 && is_mostly_empty_block blk ethr &&
      (let fib := indexFiber d ethr b
       let counts := fib.map fun t => (get_non_empty_text_spans t.2.2).length
       decide (presenceFrac d fib ≥ ppt) && decide (counts.dedup.length ≤ 2) &&
         decide (counts.foldr max 0 ≤ 3))

/-- Marking by the second rule (same content-pattern key on enough pages). -/
def markedPatternAt (d : Document) (ppt : ℚ) (p b : Nat) : Bool :=
  match blockAt d p b with
  | none => false
  | some blk =>
    blk.type = some 0 &&
      decide (presenceFrac d (patternFiber d (pattern_key blk)) ≥ ppt)

/-- Marking by the third rule (exact groups above the presence threshold). -/
def markedExactAt (d : Document) (tst pst ppt tol : ℚ) (p b : Nat) : Bool :=
  match blockAt d p b with
  | none => false
  | some blk =>
    let fib := exactFiber d tol (exactKey tol blk)
    decide (presenceFrac d fib ≥ ppt) &&
      (if blk.type = some 0 then
        shouldRemoveTextGroup tst pst
          (normalize_text (concat_block_text blk) true true) fib
      else if blk.type = some 1 then (image_hash_from_base64 (effImage blk)).isSome
      else false)

/-- A `(page, block)` pair is in the removal set iff some rule marks it. -/
def markedAt (d : Document) (tst pst ppt tol ethr : ℚ) (p b : Nat) : Bool :=
  markedEmptyAt d ethr ppt p b || markedPatternAt d ppt p b ||
    markedExactAt d tst pst ppt tol p b

/-! ### Pruning -/

/-- The per-page deletion loop: `sorted(set(marks), reverse=True)`, then
`del blocks[r]` guarded by `0 <= r < len(blocks)` against the current
length. -/
def pruneBlocks {α : Type} (marks : List Nat) (bs : List α) : List α :=
  let ris := marks.dedup.insertionSort fun a b => b ≤ a
  ris.foldl (fun acc r => if r < acc.length then acc.eraseIdx r else acc) bs

/-- `remove_repeated_blocks` of `pdf_to_json_redundancy_removed.py`: mark via
the three rules, then prune a copy (the returned document is built fresh, as
the `copy.deepcopy` guarantees). -/
def remove_repeated_blocks (parsed_doc : Document)
    (tst pst ppt tol ethr : ℚ) : Document :=
  { pages := parsed_doc.pages.enum.map (fun pp =>
      let marks := (List.range pp.2.blocks.length).filter fun b =>
        markedAt parsed_doc tst pst ppt tol ethr pp.1 b
      { pp.2 with blocks := pruneBlocks marks pp.2.blocks }) }

/-! ### List and enumeration lemmas for the pruning loop -/

theorem enumFrom_snd {α : Type} (n : Nat) (l : List α) :
    (l.enumFrom n).map Prod.snd = l := by
  induction l generalizing n with
  | nil => rfl
  | cons x xs ih => simp [List.enumFrom, ih]

theorem mem_enumFrom_iff {α : Type} {l : List α} {n : Nat} {q : Nat × α} :
    q ∈ l.enumFrom n ↔ n ≤ q.1 ∧ l.get? (q.1 - n) = some q.2 := by
  induction l generalizing n with
  | nil => simp [List.enumFrom]
  | cons x xs ih =>
    simp only [List.enumFrom, List.mem_cons, ih]
    constructor
    · rintro (rfl | ⟨h1, h2⟩)
      · simp
      · refine ⟨by omega, ?_⟩
        rw [show q.1 - n = (q.1 - (n + 1)) + 1 by omega]
        simpa using h2
    · rintro ⟨h1, h2⟩
      by_cases he : q.1 = n
      · left
        rw [he] at h2
        simp at h2
        obtain ⟨q1, q2⟩ := q
        simp_all
      · right
        refine ⟨by omega, ?_⟩
        rw [show q.1 - n = (q.1 - (n + 1)) + 1 by omega] at h2
        simpa using h2

theorem mem_enum_iff {α : Type} {l : List α} {q : Nat × α} :
    q ∈ l.enum ↔ l.get? q.1 = some q.2 := by
  rw [List.enum, mem_enumFrom_iff]
  simp

theorem mem_enum_lt {α : Type} {l : List α} {q : Nat × α} (h : q ∈ l.enum) :
    q.1 < l.length := by
  rw [mem_enum_iff] at h
  exact List.get?_eq_some.mp h |>.1

/-- Deleting one in-range index, then filtering out a set of smaller indices,
is filtering out the whole set from the original enumeration. -/
theorem eraseIdx_enumFrom_filter {α : Type} (bs : List α) (rest : List Nat) :
    ∀ (n r : Nat), (∀ x ∈ rest, x < n + r) →
    (((bs.eraseIdx r).enumFrom n).filter fun q => decide (q.1 ∉ rest)).map Prod.snd =
      ((bs.enumFrom n).filter fun q =>
        decide (q.1 ≠ n + r) && decide (q.1 ∉ rest)).map Prod.snd := by
  induction bs with
  | nil => intro n r _; simp [List.eraseIdx]
  | cons x xs ih =>
    intro n r hrest
    match r with
    | 0 =>
      have hall : ∀ q ∈ xs.enumFrom n, (decide (q.1 ∉ rest) : Bool) = true := by
        intro q hq
        have hge : n ≤ q.1 := (mem_enumFrom_iff.mp hq).1
        simp only [decide_eq_true_eq]
        intro hmem
        exact absurd (hrest _ hmem) (by omega)
      have hall' : ∀ q ∈ xs.enumFrom (n + 1),
          ((decide (q.1 ≠ n + 0) && decide (q.1 ∉ rest)) : Bool) = true := by
        intro q hq
        have hge : n + 1 ≤ q.1 := (mem_enumFrom_iff.mp hq).1
        simp only [Bool.and_eq_true, decide_eq_true_eq]
        exact ⟨by omega, fun hmem => absurd (hrest _ hmem) (by omega)⟩
      rw [show (x :: xs).eraseIdx 0 = xs from rfl]
      rw [show (x :: xs).enumFrom n = (n, x) :: xs.enumFrom (n + 1) from rfl]
      rw [List.filter_cons_of_neg (by simp)]
      rw [List.filter_eq_self.mpr hall, List.filter_eq_self.mpr hall',
        enumFrom_snd, enumFrom_snd]
    | r' + 1 =>
      have hrest' : ∀ x ∈ rest, x < (n + 1) + r' := by
        intro x hx; have := hrest x hx; omega
      rw [show n + (r' + 1) = (n + 1) + r' from by omega]
      rw [show (x :: xs).eraseIdx (r' + 1) = x :: xs.eraseIdx r' from rfl]
      rw [show (x :: xs.eraseIdx r').enumFrom n
            = (n, x) :: (xs.eraseIdx r').enumFrom (n + 1) from rfl]
      rw [show (x :: xs).enumFrom n = (n, x) :: xs.enumFrom (n + 1) from rfl]
      have hne : n ≠ (n + 1) + r' := by omega
      by_cases hn : n ∈ rest
      · rw [List.filter_cons_of_neg (by simp [hn]),
          List.filter_cons_of_neg (by simp [hn])]
        exact ih (n + 1) r' hrest'
      · rw [List.filter_cons_of_pos (by simp [hn]),
          List.filter_cons_of_pos (by simp [hn, hne])]
        simp only [List.map_cons]
        rw [ih (n + 1) r' hrest']

/-- The deletion fold over a strictly decreasing index list equals filtering
those indices out of the enumeration. -/
theorem foldl_erase_eq_filter {α : Type} (ris : List Nat) (bs : List α)
    (hpw : ris.Pairwise fun a b => b < a) :
    ris.foldl (fun acc r => if r < acc.length then acc.eraseIdx r else acc) bs =
      ((bs.enum.filter fun q => decide (q.1 ∉ ris)).map Prod.snd) := by
  induction ris generalizing bs with
  | nil =>
    simp only [List.foldl_nil]
    rw [List.filter_eq_self.mpr (by intro q _; simp), List.enum, enumFrom_snd]
  | cons r rest ih =>
    have hlt : ∀ x ∈ rest, x < r := (List.pairwise_cons.mp hpw).1
    have hpw' : rest.Pairwise fun a b => b < a := (List.pairwise_cons.mp hpw).2
    simp only [List.foldl_cons]
    by_cases hr : r < bs.length
    · rw [if_pos hr, ih _ hpw']
      have := eraseIdx_enumFrom_filter bs rest 0 r (by simpa using hlt)
      rw [List.enum, this]
      apply congrArg
      apply List.filter_congr
      intro q _
      by_cases h1 : q.1 = r <;> by_cases h2 : q.1 ∈ rest <;>
        simp [h1, h2, List.mem_cons]
    · rw [if_neg hr, ih _ hpw']
      apply congrArg
      apply List.filter_congr
      intro q hq
      have hqlt : q.1 < bs.length := mem_enum_lt hq
      have hqr : q.1 ≠ r := by omega
      by_cases h2 : q.1 ∈ rest <;> simp [h2, hqr, List.mem_cons]

/-- Claim C8, core lemma: the Python deletion loop
(`sorted(set(marks), reverse=True)` then bounds-checked `del`) removes exactly
the marked in-range indices, keeping the surviving blocks in order; marks are
deduplicated and out-of-range marks are ignored. -/
theorem pruneBlocks_eq_filter {α : Type} (marks : List Nat) (bs : List α) :
    pruneBlocks marks bs =
      (bs.enum.filter fun q => decide (q.1 ∉ marks)).map Prod.snd := by
  unfold pruneBlocks
  have hperm : List.Perm (marks.dedup.insertionSort fun a b => b ≤ a) marks.dedup :=
    List.perm_insertionSort _ _
  have hsorted : List.Sorted (fun a b : Nat => b ≤ a)
      (marks.dedup.insertionSort fun a b => b ≤ a) :=
    List.sorted_insertionSort _ _
  have hnd : (marks.dedup.insertionSort fun a b => b ≤ a).Nodup :=
    (hperm.nodup_iff).mpr (List.nodup_dedup marks)
  have hpw : (marks.dedup.insertionSort fun a b => b ≤ a).Pairwise
      fun a b => b < a := by
    have := List.Pairwise.and hsorted hnd
    exact this.imp fun h => lt_of_le_of_ne h.1 (Ne.symm h.2)
  rw [foldl_erase_eq_filter _ bs hpw]
  apply congrArg
  apply List.filter_congr
  intro q _
  have : q.1 ∈ (marks.dedup.insertionSort fun a b => b ≤ a) ↔ q.1 ∈ marks := by
    rw [hperm.mem_iff, List.mem_dedup]
  by_cases h : q.1 ∈ marks <;> simp [this, h]

/-- Claim C8: pruning correctness.  First conjunct: the per-page deletion
loop produces exactly the input sequence with the marked in-range indices
deleted — order preserved, duplicate marks deleted once, out-of-range marks
ignored.  Second conjunct: the engine keeps every page (same count, same
metadata), replacing only its block list by the marked-filtered one. -/
theorem c8_pruning_correct :
    (∀ (marks : List Nat) (bs : List Block),
      pruneBlocks marks bs =
        (bs.enum.filter fun q => decide (q.1 ∉ marks)).map Prod.snd) ∧
    (∀ (d : Document) (tst pst ppt tol ethr : ℚ),
      (remove_repeated_blocks d tst pst ppt tol ethr).pages =
        d.pages.enum.map fun pp =>
          { pp.2 with blocks :=
              (pp.2.blocks.enum.filter fun q =>
                !(markedAt d tst pst ppt tol ethr pp.1 q.1)).map Prod.snd }) := by
  constructor
  · exact fun marks bs => pruneBlocks_eq_filter marks bs
  · intro d tst pst ppt tol ethr
    show (d.pages.enum.map _) = _
    apply List.map_congr_left
    intro pp _
    dsimp only
    rw [pruneBlocks_eq_filter]
    congr 1
    apply congrArg
    apply List.filter_congr
    intro q hq
    have hqlt : q.1 < pp.2.blocks.length := mem_enum_lt hq
    by_cases hm : markedAt d tst pst ppt tol ethr pp.1 q.1 = true
    · simp [hm, List.mem_filter, List.mem_range, hqlt]
    · simp only [Bool.not_eq_true] at hm
      simp [hm, List.mem_filter, List.mem_range]

/-! ### Similarity facts: within an exact text group all digit-stripped
normalized texts equal the group's content key, so the median pairwise
similarity is 1. -/

theorem lcsLen_self (l : List Char) : lcsLen l l = l.length := by
  induction l with
  | nil => simp [lcsLen]
  | cons a as ih =>
    simp [lcsLen, ih]
    omega

theorem seqSim_self {a : String} (h : a ≠ "") : seqSim a a = 1 := by
  unfold seqSim
  rw [lcsLen_self]
  have hlen : a.length = a.data.length := rfl
  have hdne : a.data ≠ [] := by
    intro he; apply h; cases a; simp_all
  have hpos : 0 < a.data.length := List.length_pos.mpr hdne
  have h2 : (0 : ℚ) < (a.data.length : ℚ) := by exact_mod_cast hpos
  rw [hlen]
  have hd : ((a.data.length : ℚ) + (a.data.length : ℚ)) ≠ 0 :=
    ne_of_gt (by linarith)
  have h22 : (2 : ℚ) * (a.data.length : ℚ) =
      (a.data.length : ℚ) + (a.data.length : ℚ) := by ring
  rw [h22, div_self hd]

theorem medianQ_const {c : ℚ} {l : List ℚ} (hne : l ≠ [])
    (hall : ∀ x ∈ l, x = c) : medianQ l = c := by
  unfold medianQ
  have hperm : List.Perm (l.insertionSort (· ≤ ·)) l := List.perm_insertionSort _ _
  have hs : ∀ x ∈ l.insertionSort (· ≤ ·), x = c := fun x hx =>
    hall x (hperm.mem_iff.mp hx)
  have hlen : (l.insertionSort (· ≤ ·)).length = l.length := hperm.length_eq
  have hlp : l.length ≠ 0 := by simpa [List.length_eq_zero] using hne
  have hget : ∀ i, i < l.length → (l.insertionSort (· ≤ ·)).getD i 0 = c := by
    intro i hi
    cases hq : (l.insertionSort (· ≤ ·)).get? i with
    | none =>
      have := List.get?_eq_none.mp hq
      omega
    | some x =>
      have hx : x ∈ l.insertionSort (· ≤ ·) := List.get?_mem hq
      have : (l.insertionSort (· ≤ ·)).getD i 0 = x := by
        simp [List.getD_eq_getElem?_getD, ← List.get?_eq_getElem?, hq]
      rw [this]
      exact hs x hx
  rw [if_neg hlp]
  by_cases hpar : l.length % 2 = 1
  · rw [if_pos hpar]; exact hget _ (by omega)
  · rw [if_neg hpar]
    rw [hget _ (by omega), hget _ (by omega)]
    ring

theorem listPairs_mem {α : Type} {l : List α} {q : α × α}
    (h : q ∈ listPairs l) : q.1 ∈ l ∧ q.2 ∈ l := by
  induction l with
  | nil => simp [listPairs] at h
  | cons x xs ih =>
    simp only [listPairs, List.mem_append, List.mem_map] at h
    rcases h with ⟨y, hy, rfl⟩ | h
    · exact ⟨by simp, by simp [hy]⟩
    · have := ih h
      exact ⟨by simp [this.1], by simp [this.2]⟩

theorem median_pairwise_const {c : String} {l : List String}
    (hall : ∀ s ∈ l, s = c) : median_pairwise_similarity l = 1 := by
  unfold median_pairwise_similarity
  by_cases hlen : l.length ≤ 1
  · rw [if_pos hlen]
  · rw [if_neg hlen]
    dsimp only
    have hsims : ∀ x ∈ (listPairs l).map
        (fun ab => if ab.1 = "" ∧ ab.2 = "" then (1 : ℚ) else seqSim ab.1 ab.2),
        x = (1 : ℚ) := by
      intro x hx
      simp only [List.mem_map] at hx
      obtain ⟨ab, hab, rfl⟩ := hx
      have e1 : ab.1 = c := hall _ (listPairs_mem hab).1
      have e2 : ab.2 = c := hall _ (listPairs_mem hab).2
      rw [e1, e2]
      by_cases hc : c = ""
      · simp [hc]
      · rw [if_neg (by simp [hc])]
        exact seqSim_self hc
    by_cases hs : (listPairs l).map
        (fun ab => if ab.1 = "" ∧ ab.2 = "" then (1 : ℚ) else seqSim ab.1 ab.2) = []
    · rw [if_pos hs]
    · rw [if_neg hs]
      exact medianQ_const hs hsims

/-- Every member of an exact text group carries the same digit-stripped
normalized text (the group key's content fingerprint). -/
theorem exactFiber_text_const {d : Document} {tol : ℚ} {blk : Block}
    (htype : blk.type = some 0) :
    ∀ t ∈ exactFiber d tol (exactKey tol blk),
      normalize_text (concat_block_text t.2.2) true true =
        normalize_text (concat_block_text blk) true true := by
  intro t ht
  have hk : exactKey tol t.2.2 = exactKey tol blk := by
    have := (List.mem_filter.mp ht).2
    simpa using this
  have hck : contentKey t.2.2 = contentKey blk := congrArg (fun k => k.2.2) hk
  have hty : t.2.2.type = blk.type := congrArg (fun k => k.1) hk
  rw [htype] at hty
  unfold contentKey at hck
  rw [hty, htype] at hck
  simpa using hck

theorem exactFiber_texts_median_one {d : Document} {tol : ℚ} {blk : Block}
    (htype : blk.type = some 0) :
    median_pairwise_similarity ((exactFiber d tol (exactKey tol blk)).map fun t =>
      normalize_text (concat_block_text t.2.2) true true) = 1 := by
  apply median_pairwise_const (c := normalize_text (concat_block_text blk) true true)
  intro s hs
  simp only [List.mem_map] at hs
  obtain ⟨t, ht, rfl⟩ := hs
  exact exactFiber_text_const htype t ht

set_option maxHeartbeats 1000000 in
/-- Claim C4: for an exact text group at or above the presence threshold (and
a text-similarity threshold in the valid range `≤ 1`), the exact rule marks
the group exactly when the median pairwise similarity of the digit-stripped
normalized texts reaches `text_sim_threshold`, or the pattern-normalized
median reaches `pattern_sim_threshold` and some instance matches the
page-number pattern or the header/footer heuristic; moreover the similarity
of a list of at most one string is 1, and of two empty strings is 1. -/
theorem c4_exact_text_rule (d : Document) (tst pst ppt tol : ℚ) (p b : Nat)
    (blk : Block) (htst : tst ≤ 1) (hblk : blockAt d p b = some blk)
    (htype : blk.type = some 0)
    (hfrac : presenceFrac d (exactFiber d tol (exactKey tol blk)) ≥ ppt) :
    (markedExactAt d tst pst ppt tol p b = true ↔
      (median_pairwise_similarity ((exactFiber d tol (exactKey tol blk)).map fun t =>
          normalize_text (concat_block_text t.2.2) true true) ≥ tst ∨
        (median_pairwise_similarity ((exactFiber d tol (exactKey tol blk)).map fun t =>
            normalize_text_pattern (concat_block_text t.2.2) true) ≥ pst ∧
          ∃ t ∈ exactFiber d tol (exactKey tol blk),
            (has_page_pattern (concat_block_text t.2.2) = true ∨
              is_header_footer_block t.2.2 = true)))) ∧
    median_pairwise_similarity [] = 1 ∧
    (∀ s : String, median_pairwise_similarity [s] = 1) ∧
    median_pairwise_similarity ["", ""] = 1 := by
  refine ⟨?_, by rfl, by intro s; simp [median_pairwise_similarity], by decide⟩
  unfold markedExactAt
  rw [hblk]
  dsimp only
  rw [if_pos htype]
  simp only [decide_eq_true hfrac, Bool.true_and]
  unfold shouldRemoveTextGroup
  dsimp only
  constructor
  · intro h
    simp only [Bool.or_eq_true, Bool.and_eq_true, decide_eq_true_eq] at h
    rcases h with (h1 | ⟨h2a, h2b⟩) | ⟨⟨_, _⟩, h3⟩
    · exact Or.inl h1
    · refine Or.inr ⟨h2a, ?_⟩
      rcases h2b with ha | hb
      · rw [List.any_eq_true] at ha
        obtain ⟨x, hx, hid⟩ := ha
        rw [List.mem_map] at hx
        obtain ⟨t, ht, rfl⟩ := hx
        exact ⟨t, ht, Or.inl (by simpa using hid)⟩
      · rw [List.any_eq_true] at hb
        obtain ⟨x, hx, hid⟩ := hb
        rw [List.mem_map] at hx
        obtain ⟨t, ht, rfl⟩ := hx
        exact ⟨t, ht, Or.inr (by simpa using hid)⟩
    · refine Or.inl ?_
      rw [exactFiber_texts_median_one htype]
      exact htst
  · intro h
    simp only [Bool.or_eq_true, Bool.and_eq_true, decide_eq_true_eq]
    rcases h with h1 | ⟨h2a, t, ht, h2b⟩
    · exact Or.inl (Or.inl h1)
    · refine Or.inl (Or.inr ⟨h2a, ?_⟩)
      rcases h2b with hpp | hhf
      · refine Or.inl ?_
        rw [List.any_eq_true]
        exact ⟨_, List.mem_map_of_mem _ ht, by simpa using hpp⟩
      · refine Or.inr ?_
        rw [List.any_eq_true]
        exact ⟨_, List.mem_map_of_mem _ ht, by simpa using hhf⟩

/-! ### Locating blocks: `docBlocks` membership and survivors of a prune -/

theorem enumFrom_get? {α : Type} (l : List α) :
    ∀ (n i : Nat), (l.enumFrom n).get? i = (l.get? i).map fun a => (n + i, a) := by
  induction l with
  | nil => intro n i; simp [List.enumFrom]
  | cons x xs ih =>
    intro n i
    cases i with
    | zero => simp [List.enumFrom]
    | succ j =>
      simp only [List.enumFrom, List.get?]
      rw [ih (n + 1) j]
      have : n + 1 + j = n + (j + 1) := by omega
      rw [this]

theorem mem_docBlocks_iff {d : Document} {p b : Nat} {blk : Block} :
    (p, b, blk) ∈ docBlocks d ↔ blockAt d p b = some blk := by
  unfold docBlocks blockAt
  rw [List.mem_flatten]
  constructor
  · rintro ⟨L, hL, hmem⟩
    rw [List.mem_map] at hL
    obtain ⟨pp, hpp, rfl⟩ := hL
    rw [List.mem_map] at hmem
    obtain ⟨bb, hbb, heq⟩ := hmem
    have h1 : pp.1 = p := congrArg Prod.fst heq
    have h2 : bb.1 = b := congrArg (fun q => q.2.1) heq
    have h3 : bb.2 = blk := congrArg (fun q => q.2.2) heq
    have hpe : d.pages.get? pp.1 = some pp.2 := mem_enum_iff.mp hpp
    have hbe : pp.2.blocks.get? bb.1 = some bb.2 := mem_enum_iff.mp hbb
    rw [h1] at hpe
    rw [hpe]
    rw [h2, h3] at hbe
    simpa using hbe
  · intro h
    cases hp : d.pages.get? p with
    | none => rw [hp] at h; simp at h
    | some pg =>
      rw [hp] at h
      simp only [Option.some_bind] at h
      refine ⟨pg.blocks.enum.map fun bb => (p, bb.1, bb.2), ?_, ?_⟩
      · rw [List.mem_map]
        refine ⟨(p, pg), mem_enum_iff.mpr (by simpa using hp), rfl⟩
      · rw [List.mem_map]
        exact ⟨(b, blk), mem_enum_iff.mpr h, rfl⟩

theorem totalPages_engine (d : Document) (tst pst ppt tol ethr : ℚ) :
    totalPages (remove_repeated_blocks d tst pst ppt tol ethr) = totalPages d := by
  unfold totalPages remove_repeated_blocks
  simp [List.enum_length]

/-- Every block of the pruned document sits at some unmarked position of the
same page of the input. -/
theorem pruned_blockAt {d : Document} {tst pst ppt tol ethr : ℚ} {p i : Nat}
    {blk : Block}
    (h : blockAt (remove_repeated_blocks d tst pst ppt tol ethr) p i = some blk) :
    ∃ b0, blockAt d p b0 = some blk ∧
      markedAt d tst pst ppt tol ethr p b0 = false := by
  unfold blockAt remove_repeated_blocks at h
  simp only [List.get?_map] at h
  rw [List.enum, enumFrom_get? d.pages 0 p] at h
  cases hp : d.pages.get? p with
  | none => rw [hp] at h; simp at h
  | some pg =>
    rw [hp] at h
    simp only [Option.map_some', Option.some_bind, Nat.zero_add] at h
    rw [pruneBlocks_eq_filter] at h
    have hmem : blk ∈ (pg.blocks.enum.filter fun q =>
        decide (q.1 ∉ (List.range pg.blocks.length).filter fun b =>
          markedAt d tst pst ppt tol ethr p b)).map Prod.snd :=
      List.get?_mem h
    rw [List.mem_map] at hmem
    obtain ⟨q, hq, rfl⟩ := hmem
    have hqf := List.mem_filter.mp hq
    have hqe : pg.blocks.get? q.1 = some q.2 := mem_enum_iff.mp hqf.1
    have hlt : q.1 < pg.blocks.length := mem_enum_lt hqf.1
    have hnotin : q.1 ∉ (List.range pg.blocks.length).filter fun b =>
        markedAt d tst pst ppt tol ethr p b := of_decide_eq_true hqf.2
    have hmk : markedAt d tst pst ppt tol ethr p q.1 = false := by
      by_contra hc
      simp only [Bool.not_eq_false] at hc
      exact hnotin (List.mem_filter.mpr ⟨List.mem_range.mpr hlt, hc⟩)
    refine ⟨q.1, ?_, hmk⟩
    unfold blockAt
    rw [hp]
    simpa using hqe

theorem dedup_length_le_of_subset {l1 l2 : List Nat} (h : ∀ x ∈ l1, x ∈ l2) :
    l1.dedup.length ≤ l2.dedup.length := by
  rw [← List.card_toFinset, ← List.card_toFinset]
  refine Finset.card_le_card fun x hx => ?_
  rw [List.mem_toFinset] at *
  exact h x hx

theorem totalPages_cast_pos (d : Document) : (0 : ℚ) < (totalPages d : ℚ) := by
  have : 1 ≤ totalPages d := le_max_left 1 _
  exact_mod_cast lt_of_lt_of_le zero_lt_one (by exact_mod_cast this)

theorem presenceFrac_mono {d1 d2 : Document} {l1 l2 : List (Nat × Nat × Block)}
    (htp : totalPages d1 = totalPages d2)
    (h : ∀ x ∈ l1.map (fun t => t.1), x ∈ l2.map fun t => t.1) :
    presenceFrac d1 l1 ≤ presenceFrac d2 l2 := by
  unfold presenceFrac
  rw [htp]
  rw [div_le_div_iff_of_pos_right (totalPages_cast_pos d2)]
  exact_mod_cast dedup_length_le_of_subset h

theorem engine_fiber_pages_subset (d : Document) (tst pst ppt tol ethr : ℚ)
    (g : Block → Bool) :
    ∀ x ∈ (((docBlocks (remove_repeated_blocks d tst pst ppt tol ethr)).filter
        fun t => g t.2.2).map fun t => t.1),
      x ∈ ((docBlocks d).filter fun t => g t.2.2).map fun t => t.1 := by
  intro x hx
  rw [List.mem_map] at hx
  obtain ⟨t, ht, rfl⟩ := hx
  obtain ⟨p, b, blk⟩ := t
  have hf := List.mem_filter.mp ht
  have hmem : blockAt (remove_repeated_blocks d tst pst ppt tol ethr) p b =
      some blk := mem_docBlocks_iff.mp hf.1
  obtain ⟨b0, hb0, _⟩ := pruned_blockAt hmem
  rw [List.mem_map]
  exact ⟨(p, b0, blk), List.mem_filter.mpr ⟨mem_docBlocks_iff.mpr hb0, hf.2⟩, rfl⟩

/-! ### Claim C1 -/

/-- Claim C1, amended: a block is only ever marked when at least one of the
three groups containing it — its exact group, its pattern group, or the
mostly-empty index group at its block index — reaches the presence threshold.
(The claim as stated, restricted to the exact group alone, is refuted by
`c1_counterexample`.) -/
theorem c1_amended (d : Document) (tst pst ppt tol ethr : ℚ) (p b : Nat)
    (blk : Block) (hblk : blockAt d p b = some blk)
    (hmark : markedAt d tst pst ppt tol ethr p b = true) :
    presenceFrac d (exactFiber d tol (exactKey tol blk)) ≥ ppt ∨
      presenceFrac d (patternFiber d (pattern_key blk)) ≥ ppt ∨
      presenceFrac d (indexFiber d ethr b) ≥ ppt := by
  unfold markedAt markedEmptyAt markedPatternAt markedExactAt at hmark
  rw [hblk] at hmark
  simp only [Bool.or_eq_true, Bool.and_eq_true, decide_eq_true_eq] at hmark
  rcases hmark with hEP | hX
  · rcases hEP with hE | hP
    · exact Or.inr (Or.inr hE.2.1.1)
    · exact Or.inr (Or.inl hP.2)
  · exact Or.inl hX.1

/-- The 2-page document refuting C1 as stated: the same text `"Hello"` sits at
two different positions, so the two exact groups each have presence ratio
1/2 < 0.95, yet the pattern group (position-blind) covers both pages and the
pattern rule deletes both instances. -/
def c1BlockA : Block :=
  { type := some 0, bbox := [0, 0, 10, 10], lines := [⟨[⟨"Hello"⟩]⟩],
    image := none, image_bytes := none }

def c1BlockB : Block :=
  { type := some 0, bbox := [100, 100, 110, 110], lines := [⟨[⟨"Hello"⟩]⟩],
    image := none, image_bytes := none }

def c1Doc : Document :=
  ⟨[⟨1, 612, 792, [c1BlockA]⟩, ⟨2, 612, 792, [c1BlockB]⟩]⟩

unseal Rat.mul Rat.inv Rat.add Rat.sub in
/-- Claim C1, counterexample: with the default thresholds, the exact group of
the page-1 `"Hello"` block has presence ratio 1/2 < 0.95, yet the block is
removed (both pages end up empty), because the pattern rule marks it. -/
theorem c1_counterexample :
    presenceFrac c1Doc (exactFiber c1Doc 3 (exactKey 3 c1BlockA)) = 1 / 2 ∧
      ((1 : ℚ) / 2 < 95 / 100) ∧
      (remove_repeated_blocks c1Doc (95 / 100) (8 / 10) (95 / 100) 3
          (8 / 10)).pages.map Page.blocks = [[], []] := by
  refine ⟨by decide, by decide, by decide⟩

unseal Rat.mul Rat.inv Rat.add Rat.sub in
/-- Witness for C1's amended theorem at the counterexample document. -/
theorem c1_amended_witness :
    (blockAt c1Doc 0 0 = some c1BlockA ∧
      markedAt c1Doc (95 / 100) (8 / 10) (95 / 100) 3 (8 / 10) 0 0 = true) ∧
      (presenceFrac c1Doc (exactFiber c1Doc 3 (exactKey 3 c1BlockA)) ≥ 95 / 100 ∨
        presenceFrac c1Doc (patternFiber c1Doc (pattern_key c1BlockA)) ≥ 95 / 100 ∨
        presenceFrac c1Doc (indexFiber c1Doc (8 / 10) 0) ≥ 95 / 100) :=
  ⟨⟨by decide, by decide⟩,
    c1_amended c1Doc (95 / 100) (8 / 10) (95 / 100) 3 (8 / 10) 0 0 c1BlockA
      (by decide) (by decide)⟩

/-! ### Claim C9: single-page documents -/

theorem list_dedup_zeros {l : List Nat} (hne : l ≠ []) (hz : ∀ x ∈ l, x = 0) :
    l.dedup = [0] := by
  have h1 : l.dedup.Nodup := List.nodup_dedup l
  have h2 : ∀ x ∈ l.dedup, x = 0 := fun x hx => hz x (List.mem_dedup.mp hx)
  have h3 : (0 : Nat) ∈ l.dedup := by
    rw [List.mem_dedup]
    cases l with
    | nil => exact absurd rfl hne
    | cons a t =>
      have := hz a (by simp)
      rw [← this]
      simp
  cases hd : l.dedup with
  | nil => rw [hd] at h3; simp at h3
  | cons a t =>
    rw [hd] at h1 h2
    have ha : a = 0 := h2 a (by simp)
    cases t with
    | nil => rw [ha]
    | cons b t2 =>
      have hb : b = 0 := h2 b (by simp)
      rw [List.nodup_cons] at h1
      exact absurd (by rw [ha, hb]; simp) h1.1

theorem docBlocks_single_fst {pg : Page} : ∀ t ∈ docBlocks ⟨[pg]⟩, t.1 = 0 := by
  intro t ht
  obtain ⟨p, b, blk⟩ := t
  have hmem := mem_docBlocks_iff.mp ht
  unfold blockAt at hmem
  cases hp2 : (⟨[pg]⟩ : Document).pages.get? p with
  | none => rw [hp2] at hmem; simp at hmem
  | some pg2 =>
    have hlt : p < 1 := by
      have := (List.get?_eq_some.mp hp2).1
      simpa using this
    omega

theorem presenceFrac_one_single {pg : Page} {fib : List (Nat × Nat × Block)}
    (hne : fib ≠ []) (hz : ∀ t ∈ fib, t.1 = 0) :
    presenceFrac ⟨[pg]⟩ fib = 1 := by
  unfold presenceFrac totalPages
  have hmap : ∀ x ∈ fib.map (fun t => t.1), x = 0 := by
    intro x hx
    rw [List.mem_map] at hx
    obtain ⟨t, ht, rfl⟩ := hx
    exact hz t ht
  have hmapne : fib.map (fun t => t.1) ≠ [] := by simpa using hne
  rw [list_dedup_zeros hmapne hmap]
  norm_num

theorem enumFrom_filter_snd {α : Type} (g : α → Bool) (l : List α) :
    ∀ n, ((l.enumFrom n).filter fun q => g q.2).map Prod.snd = l.filter g := by
  induction l with
  | nil => intro n; rfl
  | cons x xs ih =>
    intro n
    simp only [List.enumFrom, List.filter_cons]
    by_cases hx : g x = true
    · simp [hx, ih (n + 1)]
    · simp only [Bool.not_eq_true] at hx
      simp [hx, ih (n + 1)]

theorem single_blockAt {pg : Page} {i : Nat} {blk : Block}
    (hb : pg.blocks.get? i = some blk) :
    blockAt ⟨[pg]⟩ 0 i = some blk := by
  unfold blockAt
  simpa using hb

/-- On a one-page document every text block's pattern group covers the whole
document, so the pattern rule marks it. -/
theorem single_marked_text {pg : Page} {i : Nat} {blk : Block}
    (hb : pg.blocks.get? i = some blk) (htype : blk.type = some 0) :
    markedPatternAt ⟨[pg]⟩ (95 / 100) 0 i = true := by
  have hba := single_blockAt hb
  unfold markedPatternAt
  rw [hba]
  have hfib : (0, i, blk) ∈ patternFiber ⟨[pg]⟩ (pattern_key blk) := by
    refine List.mem_filter.mpr ⟨mem_docBlocks_iff.mpr hba, ?_⟩
    simp [htype]
  have hfrac : presenceFrac ⟨[pg]⟩ (patternFiber ⟨[pg]⟩ (pattern_key blk)) = 1 :=
    presenceFrac_one_single (fun he => by rw [he] at hfib; simp at hfib)
      (fun t ht => docBlocks_single_fst t (List.mem_filter.mp ht).1)
  dsimp only
  rw [hfrac]
  have h1 : (1 : ℚ) ≥ 95 / 100 := by norm_num
  simp [htype, decide_eq_true h1]

/-- On a one-page document every image block with a payload is marked by the
exact rule. -/
theorem single_marked_image {pg : Page} {i : Nat} {blk : Block}
    (hb : pg.blocks.get? i = some blk) (htype : blk.type = some 1)
    (himg : effImage blk ≠ "") :
    markedExactAt ⟨[pg]⟩ (95 / 100) (8 / 10) (95 / 100) 3 0 i = true := by
  have hba := single_blockAt hb
  unfold markedExactAt
  rw [hba]
  have hfib : (0, i, blk) ∈ exactFiber ⟨[pg]⟩ 3 (exactKey 3 blk) := by
    refine List.mem_filter.mpr ⟨mem_docBlocks_iff.mpr hba, by simp⟩
  have hfrac : presenceFrac ⟨[pg]⟩ (exactFiber ⟨[pg]⟩ 3 (exactKey 3 blk)) = 1 :=
    presenceFrac_one_single (fun he => by rw [he] at hfib; simp at hfib)
      (fun t ht => docBlocks_single_fst t (List.mem_filter.mp ht).1)
  dsimp only
  rw [hfrac]
  have h1 : (1 : ℚ) ≥ 95 / 100 := by norm_num
  have ht0 : ¬ blk.type = some 0 := by rw [htype]; simp
  rw [if_neg ht0, if_pos htype]
  have hsome : (image_hash_from_base64 (effImage blk)).isSome = true := by
    unfold image_hash_from_base64
    rw [if_neg himg]
    cases pyB64DecodeStr (effImage blk) <;> simp
  simp [decide_eq_true h1, hsome]

/-- On a one-page document, a block is marked exactly when it is a text block
or an image block with a non-empty payload. -/
theorem single_marked_iff {pg : Page} {i : Nat} {blk : Block}
    (hb : pg.blocks.get? i = some blk) :
    markedAt ⟨[pg]⟩ (95 / 100) (8 / 10) (95 / 100) 3 (8 / 10) 0 i =
      (blk.type = some 0 || (blk.type = some 1 && !(effImage blk = ""))) := by
  have hba := single_blockAt hb
  by_cases ht0 : blk.type = some 0
  · have hpat := single_marked_text hb ht0
    unfold markedAt
    rw [hpat]
    simp [ht0]
  · by_cases ht1 : blk.type = some 1
    · by_cases himg : effImage blk = ""
      · unfold markedAt markedEmptyAt markedPatternAt markedExactAt
        rw [hba]
        dsimp only
        rw [if_neg ht0, if_pos ht1]
        have hnone : (image_hash_from_base64 (effImage blk)).isSome = false := by
          unfold image_hash_from_base64
          rw [if_pos himg]
          rfl
        simp [ht0, ht1, himg, hnone]
        exact fun _ => rfl
      · have hex := single_marked_image hb ht1 himg
        unfold markedAt
        rw [hex]
        simp [ht0, ht1, himg]
    · unfold markedAt markedEmptyAt markedPatternAt markedExactAt
      rw [hba]
      dsimp only
      rw [if_neg ht0, if_neg ht1]
      simp [ht0, ht1]

/-- Claim C9: on a single-page document with the default thresholds the
engine removes every text block and every image block with a non-empty
payload; only blocks of other types and payload-less image blocks survive. -/
theorem c9_single_page (d : Document) (pg : Page) (hp : d.pages = [pg]) :
    remove_repeated_blocks d (95 / 100) (8 / 10) (95 / 100) 3 (8 / 10) =
      ⟨[{ pg with blocks := pg.blocks.filter fun blk =>
          !(blk.type = some 0 || (blk.type = some 1 && !(effImage blk = ""))) }]⟩ := by
  have hd : d = ⟨[pg]⟩ := by
    obtain ⟨pages⟩ := d
    exact congrArg Document.mk hp
  subst hd
  unfold remove_repeated_blocks
  simp only [List.enum, List.enumFrom, List.map]
  congr 1
  congr 1
  dsimp only
  rw [pruneBlocks_eq_filter]
  have hcongr : ∀ q ∈ pg.blocks.enum,
      (decide (q.1 ∉ (List.range pg.blocks.length).filter fun b =>
        markedAt ⟨[pg]⟩ (95 / 100) (8 / 10) (95 / 100) 3 (8 / 10) 0 b) : Bool) =
      !(q.2.type = some 0 || (q.2.type = some 1 && !(effImage q.2 = ""))) := by
    intro q hq
    have hqe : pg.blocks.get? q.1 = some q.2 := mem_enum_iff.mp hq
    have hqlt : q.1 < pg.blocks.length := mem_enum_lt hq
    have hmk := single_marked_iff hqe
    by_cases hm : (q.2.type = some 0 ||
        (q.2.type = some 1 && !(effImage q.2 = ""))) = true
    · rw [hm] at hmk
      simp [hm, List.mem_filter, List.mem_range, hqlt, hmk]
    · simp only [Bool.not_eq_true] at hm
      rw [hm] at hmk
      simp [hm, List.mem_filter, hmk]
  rw [List.filter_congr hcongr]
  rw [List.enum]
  congr 1
  exact enumFrom_filter_snd
    (fun blk => !(blk.type = some 0 || (blk.type = some 1 && !(effImage blk = ""))))
    pg.blocks 0

/-! ### Claim C2: idempotence -/

theorem pruneBlocks_nil {α : Type} (bs : List α) : pruneBlocks [] bs = bs := rfl

/-- After one pass, no block of the pruned document is marked again, provided
the document has no mostly-empty text blocks (the empty-index rule is the one
rule that can re-fire after deletions shift block indices) and the text
similarity threshold is in its valid range. -/
theorem second_pass_unmarked (d : Document) (tst pst ppt tol ethr : ℚ)
    (htst : tst ≤ 1)
    (hne : ∀ pg ∈ d.pages, ∀ blk ∈ pg.blocks,
      ¬(blk.type = some 0 ∧ is_mostly_empty_block blk ethr = true)) :
    ∀ p i, markedAt (remove_repeated_blocks d tst pst ppt tol ethr)
      tst pst ppt tol ethr p i = false := by
  have hblk_no_empty : ∀ p b0 blk, blockAt d p b0 = some blk →
      ¬(blk.type = some 0 ∧ is_mostly_empty_block blk ethr = true) := by
    intro p b0 blk h
    unfold blockAt at h
    cases hp : d.pages.get? p with
    | none => rw [hp] at h; simp at h
    | some pg =>
      rw [hp] at h
      simp only [Option.some_bind] at h
      exact hne pg (List.get?_mem hp) blk (List.get?_mem h)
  intro p i
  cases hb : blockAt (remove_repeated_blocks d tst pst ppt tol ethr) p i with
  | none =>
    unfold markedAt markedEmptyAt markedPatternAt markedExactAt
    rw [hb]
    rfl
  | some blk =>
    obtain ⟨b0, hb0, hm0⟩ := pruned_blockAt hb
    unfold markedAt at hm0
    simp only [Bool.or_eq_false_iff] at hm0
    obtain ⟨⟨hE0, hP0⟩, hX0⟩ := hm0
    have hE : markedEmptyAt (remove_repeated_blocks d tst pst ppt tol ethr)
        ethr ppt p i = false := by
      unfold markedEmptyAt
      rw [hb]
      have hno := hblk_no_empty p b0 blk hb0
      by_cases hA : blk.type = some 0
      · have hB : is_mostly_empty_block blk ethr = false := by
          by_contra hc
          simp only [Bool.not_eq_false] at hc
          exact hno ⟨hA, hc⟩
        simp [hB]
      · simp [hA]
    have hP : markedPatternAt (remove_repeated_blocks d tst pst ppt tol ethr)
        ppt p i = false := by
      unfold markedPatternAt
      rw [hb]
      by_cases hA : blk.type = some 0
      · have hfr0 : ¬(presenceFrac d (patternFiber d (pattern_key blk)) ≥ ppt) := by
          unfold markedPatternAt at hP0
          rw [hb0] at hP0
          simp only [hA, decide_eq_true_eq, Bool.and_eq_false_iff] at hP0
          rcases hP0 with h1 | h2
          · simp at h1
          · exact of_decide_eq_false h2
        have hle : presenceFrac (remove_repeated_blocks d tst pst ppt tol ethr)
            (patternFiber (remove_repeated_blocks d tst pst ppt tol ethr)
              (pattern_key blk)) ≤
            presenceFrac d (patternFiber d (pattern_key blk)) :=
          presenceFrac_mono (totalPages_engine d tst pst ppt tol ethr)
            (engine_fiber_pages_subset d tst pst ppt tol ethr
              (fun b => b.type = some 0 && pattern_key b = pattern_key blk))
        have hnge : ¬(presenceFrac (remove_repeated_blocks d tst pst ppt tol ethr)
            (patternFiber (remove_repeated_blocks d tst pst ppt tol ethr)
              (pattern_key blk)) ≥ ppt) :=
          fun hge => hfr0 (le_trans hge hle)
        simp [decide_eq_false hnge]
      · simp [hA]
    have hX : markedExactAt (remove_repeated_blocks d tst pst ppt tol ethr)
        tst pst ppt tol p i = false := by
      unfold markedExactAt
      rw [hb]
      dsimp only
      have hle : presenceFrac (remove_repeated_blocks d tst pst ppt tol ethr)
          (exactFiber (remove_repeated_blocks d tst pst ppt tol ethr) tol
            (exactKey tol blk)) ≤
          presenceFrac d (exactFiber d tol (exactKey tol blk)) :=
        presenceFrac_mono (totalPages_engine d tst pst ppt tol ethr)
          (engine_fiber_pages_subset d tst pst ppt tol ethr
            (fun b => decide (exactKey tol b = exactKey tol blk)))
      by_cases hA : blk.type = some 0
      · have hfr0 : ¬(presenceFrac d (exactFiber d tol (exactKey tol blk)) ≥ ppt) := by
          intro hge
          unfold markedExactAt at hX0
          rw [hb0] at hX0
          dsimp only at hX0
          rw [if_pos hA, decide_eq_true hge] at hX0
          simp only [Bool.true_and] at hX0
          unfold shouldRemoveTextGroup at hX0
          dsimp only at hX0
          rw [exactFiber_texts_median_one hA] at hX0
          rw [decide_eq_true (show (1 : ℚ) ≥ tst from htst)] at hX0
          simp at hX0
        have hnge : ¬(presenceFrac (remove_repeated_blocks d tst pst ppt tol ethr)
            (exactFiber (remove_repeated_blocks d tst pst ppt tol ethr) tol
              (exactKey tol blk)) ≥ ppt) :=
          fun hge => hfr0 (le_trans hge hle)
        simp [decide_eq_false hnge]
      · by_cases hA1 : blk.type = some 1
        · by_cases hh : (image_hash_from_base64 (effImage blk)).isSome = true
          · have hfr0 : ¬(presenceFrac d (exactFiber d tol (exactKey tol blk)) ≥ ppt) := by
              intro hge
              unfold markedExactAt at hX0
              rw [hb0] at hX0
              dsimp only at hX0
              rw [if_neg hA, if_pos hA1, decide_eq_true hge] at hX0
              simp [hh] at hX0
            have hnge : ¬(presenceFrac (remove_repeated_blocks d tst pst ppt tol ethr)
                (exactFiber (remove_repeated_blocks d tst pst ppt tol ethr) tol
                  (exactKey tol blk)) ≥ ppt) :=
              fun hge => hfr0 (le_trans hge hle)
            simp [decide_eq_false hnge]
          · simp only [Bool.not_eq_true] at hh
            rw [if_neg hA, if_pos hA1, hh]
            simp
        · rw [if_neg hA, if_neg hA1]
          simp
    unfold markedAt
    rw [hE, hP, hX]
    rfl

/-- Claim C2, amended: idempotence holds for documents without mostly-empty
text blocks (for thresholds with `text_sim_threshold ≤ 1`): the second pass
marks nothing via any rule, so the second pruned output equals the first.
In general idempotence fails — deletions shift block indices, and the
empty-index rule can fire on pass two (`c2_counterexample`). -/
theorem c2_amended (d : Document) (tst pst ppt tol ethr : ℚ) (htst : tst ≤ 1)
    (hne : ∀ pg ∈ d.pages, ∀ blk ∈ pg.blocks,
      ¬(blk.type = some 0 ∧ is_mostly_empty_block blk ethr = true)) :
    remove_repeated_blocks (remove_repeated_blocks d tst pst ppt tol ethr)
        tst pst ppt tol ethr =
      remove_repeated_blocks d tst pst ppt tol ethr := by
  have hmk := second_pass_unmarked d tst pst ppt tol ethr htst hne
  conv_lhs => rw [remove_repeated_blocks]
  have hmap : (remove_repeated_blocks d tst pst ppt tol ethr).pages.enum.map
      (fun pp =>
        let marks := (List.range pp.2.blocks.length).filter fun b =>
          markedAt (remove_repeated_blocks d tst pst ppt tol ethr)
            tst pst ppt tol ethr pp.1 b
        { pp.2 with blocks := pruneBlocks marks pp.2.blocks }) =
      (remove_repeated_blocks d tst pst ppt tol ethr).pages.enum.map
        (fun pp => pp.2) := by
    apply List.map_congr_left
    intro pp _
    dsimp only
    have hmarks : ((List.range pp.2.blocks.length).filter fun b =>
        markedAt (remove_repeated_blocks d tst pst ppt tol ethr)
          tst pst ppt tol ethr pp.1 b) = [] := by
      apply List.filter_eq_nil_iff.mpr
      intro a _
      simp [hmk pp.1 a]
    rw [hmarks, pruneBlocks_nil]
  rw [hmap]
  rw [List.enum, enumFrom_snd]

/-- The 2-page document refuting idempotence: the shared footer is removed on
pass one from both pages, after which the two mostly-empty filler blocks —
originally at different block indices — line up at index 0, and the
empty-index rule removes them on pass two. -/
def c2FBlock : Block :=
  { type := some 0, bbox := [0, 0, 30, 9], lines := [⟨[⟨"Footer text here"⟩]⟩],
    image := none, image_bytes := none }

def c2EBlock (c : String) : Block :=
  { type := some 0, bbox := [0, 60, 30, 69],
    lines := [⟨[⟨""⟩, ⟨""⟩, ⟨""⟩, ⟨""⟩, ⟨c⟩]⟩],
    image := none, image_bytes := none }

def c2Doc : Document :=
  ⟨[⟨1, 612, 792, [c2FBlock, c2EBlock "a"]⟩,
    ⟨2, 612, 792, [c2EBlock "b", c2FBlock]⟩]⟩

unseal Rat.mul Rat.inv Rat.add Rat.sub in
/-- Claim C2, counterexample: with the default thresholds, running the engine
on its own output removes further blocks. -/
theorem c2_counterexample :
    remove_repeated_blocks
        (remove_repeated_blocks c2Doc (95 / 100) (8 / 10) (95 / 100) 3 (8 / 10))
        (95 / 100) (8 / 10) (95 / 100) 3 (8 / 10) ≠
      remove_repeated_blocks c2Doc (95 / 100) (8 / 10) (95 / 100) 3 (8 / 10) := by
  decide

unseal Rat.mul Rat.inv Rat.add Rat.sub in
/-- Witness for C2's amended theorem on a document without mostly-empty text
blocks. -/
theorem c2_amended_witness :
    (((95 : ℚ) / 100 ≤ 1) ∧
      (∀ pg ∈ c1Doc.pages, ∀ blk ∈ pg.blocks,
        ¬(blk.type = some 0 ∧ is_mostly_empty_block blk (8 / 10) = true))) ∧
      remove_repeated_blocks
          (remove_repeated_blocks c1Doc (95 / 100) (8 / 10) (95 / 100) 3 (8 / 10))
          (95 / 100) (8 / 10) (95 / 100) 3 (8 / 10) =
        remove_repeated_blocks c1Doc (95 / 100) (8 / 10) (95 / 100) 3 (8 / 10) :=
  ⟨⟨by decide, by decide⟩,
    c2_amended c1Doc (95 / 100) (8 / 10) (95 / 100) 3 (8 / 10)
      (by decide) (by decide)⟩

/-! ### Claim C10: the two engine variants

The removal logic of `remove_repeated_blocks` is textually identical in
`pdf_to_json_redundancy_removed.py` and
`pdf_to_json_redundancy_removed_report.py`; the report file only additionally
appends entries to a `report` dict (pure bookkeeping that reads, never
mutates, the shared data).  The report model below records each group entry's
rule kind, reason and 1-based page list; the remaining report fields (scores,
example texts, indices) are byproducts that cannot influence the pruned
document, which is the content of this claim. -/

structure ReportEntry where
  kind : String
  reason : String
  pages : List Nat
deriving DecidableEq

structure Report where
  removed_groups : List ReportEntry
  kept_groups : List ReportEntry
deriving DecidableEq

/-- Deduplicate keeping first occurrences (Python dict key order). -/
def firstDedup {α : Type} [DecidableEq α] : List α → List α
  | [] => []
  | x :: xs => x :: firstDedup (xs.filter fun y => !(y = x))
termination_by l => l.length
decreasing_by
  simp only [List.length_cons]
  exact Nat.lt_succ_of_le (List.length_filter_le _ _)

/-- Human-facing sorted 1-based page list of a group. -/
def pagesOneBased (fib : List (Nat × Nat × Block)) : List Nat :=
  (((fib.map fun t => t.1).dedup.insertionSort fun a b => a ≤ b).map fun p => p + 1)

def emptyRuleEntries (d : Document) (ethr ppt : ℚ) : List ReportEntry :=
  (firstDedup (((docBlocks d).filter fun t =>
      t.2.2.type = some 0 && is_mostly_empty_block t.2.2 ethr).map
        fun t => t.2.1)).filterMap fun bi =>
    let fib := indexFiber d ethr bi
    let counts := fib.map fun t => (get_non_empty_text_spans t.2.2).length
    if presenceFrac d fib ≥ ppt ∧ counts.dedup.length ≤ 2 ∧
        counts.foldr max 0 ≤ 3 then
      some ⟨"empty_blocks_by_index", "repeated_empty_structure_same_position",
        pagesOneBased fib⟩
    else none

def patternRuleEntries (d : Document) (ppt : ℚ) : List ReportEntry :=
  (firstDedup (((docBlocks d).filter fun t => t.2.2.type = some 0).map
      fun t => pattern_key t.2.2)).filterMap fun k =>
    let fib := patternFiber d k
    if presenceFrac d fib ≥ ppt then
      some ⟨"pattern_match", "same_content_pattern_across_pages",
        pagesOneBased fib⟩
    else none

/-- The `removal_reason` string chosen by the exact rule's text branch. -/
def exactTextReason (tst pst : ℚ) (insts : List (Nat × Nat × Block)) : String :=
  let texts := insts.map fun t => normalize_text (concat_block_text t.2.2) true true
  let pats := insts.map fun t => normalize_text_pattern (concat_block_text t.2.2) true
  let medianSim := median_pairwise_similarity texts
  let patternSim := median_pairwise_similarity pats
  let pagePat := insts.map fun t => has_page_pattern (concat_block_text t.2.2)
  let hf := insts.map fun t => is_header_footer_block t.2.2
  if medianSim ≥ tst then "high_text_similarity"
  else if patternSim ≥ pst ∧ (pagePat.any id || hf.any id) = true then
    "header_footer_pattern_similarity"
  else "header_footer_structure_match"

def exactRuleEntries (d : Document) (tst pst ppt tol : ℚ) :
    List ReportEntry × List ReportEntry :=
  (firstDedup ((docBlocks d).map fun t => exactKey tol t.2.2)).foldl
    (fun acc k =>
      let fib := exactFiber d tol k
      if presenceFrac d fib ≥ ppt then
        match k.1 with
        | some 0 =>
          if shouldRemoveTextGroup tst pst (k.2.2.getD "") fib then
            (acc.1 ++ [⟨"text", exactTextReason tst pst fib, pagesOneBased fib⟩],
              acc.2)
          else (acc.1, acc.2 ++ [⟨"text", "", pagesOneBased fib⟩])
        | some 1 =>
          if k.2.2.isSome then
            (acc.1 ++ [⟨"image", "identical_image_hash", pagesOneBased fib⟩],
              acc.2)
          else (acc.1, acc.2 ++ [⟨"image", "", pagesOneBased fib⟩])
        | _ => acc
      else
        (acc.1, acc.2 ++ [⟨if k.1 = some 0 then "text"
            else if k.1 = some 1 then "image" else "other", "",
          pagesOneBased fib⟩]))
    ([], [])

/-- `remove_repeated_blocks` of `pdf_to_json_redundancy_removed_report.py`:
the same marking and pruning (the two files' removal code is identical), plus
the removal report as a second component. -/
def remove_repeated_blocks_report (parsed_doc : Document)
    (tst pst ppt tol ethr : ℚ) : Document × Report :=
  ({ pages := parsed_doc.pages.enum.map (fun pp =>
      let marks := (List.range pp.2.blocks.length).filter fun b =>
        markedAt parsed_doc tst pst ppt tol ethr pp.1 b
      { pp.2 with blocks := pruneBlocks marks pp.2.blocks }) },
   { removed_groups := emptyRuleEntries parsed_doc ethr ppt ++
       patternRuleEntries parsed_doc ppt ++
       (exactRuleEntries parsed_doc tst pst ppt tol).1,
     kept_groups := (exactRuleEntries parsed_doc tst pst ppt tol).2 })

/-- Claim C10: for every document and identical threshold arguments, the
pruned document returned by the plain variant equals the first component of
the pair returned by the report-building variant — the report is a byproduct
that never changes which blocks are removed. -/
theorem c10_variants_agree (d : Document) (tst pst ppt tol ethr : ℚ) :
    (remove_repeated_blocks_report d tst pst ppt tol ethr).1 =
      remove_repeated_blocks d tst pst ppt tol ethr := rfl

/-! ### Concrete witnesses for C4 and C9 -/

def c4Doc : Document := ⟨[⟨1, 612, 792, [c1BlockA]⟩]⟩

unseal Rat.mul Rat.inv Rat.add Rat.sub in
/-- Witness for C4 at a one-page document whose single text block forms an
exact group of full presence. -/
theorem c4_exact_text_rule_witness :
    (((95 : ℚ) / 100 ≤ 1) ∧ blockAt c4Doc 0 0 = some c1BlockA ∧
      c1BlockA.type = some 0 ∧
      presenceFrac c4Doc (exactFiber c4Doc 3 (exactKey 3 c1BlockA)) ≥ 95 / 100) ∧
    ((markedExactAt c4Doc (95 / 100) (8 / 10) (95 / 100) 3 0 0 = true ↔
      (median_pairwise_similarity ((exactFiber c4Doc 3 (exactKey 3 c1BlockA)).map
          fun t => normalize_text (concat_block_text t.2.2) true true) ≥ 95 / 100 ∨
        (median_pairwise_similarity ((exactFiber c4Doc 3 (exactKey 3 c1BlockA)).map
            fun t => normalize_text_pattern (concat_block_text t.2.2) true) ≥ 8 / 10 ∧
          ∃ t ∈ exactFiber c4Doc 3 (exactKey 3 c1BlockA),
            (has_page_pattern (concat_block_text t.2.2) = true ∨
              is_header_footer_block t.2.2 = true)))) ∧
      median_pairwise_similarity [] = 1 ∧
      (∀ s : String, median_pairwise_similarity [s] = 1) ∧
      median_pairwise_similarity ["", ""] = 1) :=
  ⟨⟨by decide, by decide, by decide, by decide⟩,
    c4_exact_text_rule c4Doc (95 / 100) (8 / 10) (95 / 100) 3 0 0 c1BlockA
      (by decide) (by decide) (by decide) (by decide)⟩

def c9Page : Page :=
  ⟨1, 612, 792,
    [{ type := some 0, bbox := [0, 0, 10, 10], lines := [⟨[⟨"Body text"⟩]⟩],
       image := none, image_bytes := none },
     { type := some 1, bbox := [0, 0, 5, 5], lines := [],
       image := some "YWJjZA==", image_bytes := none },
     { type := some 1, bbox := [0, 0, 5, 5], lines := [],
       image := none, image_bytes := none },
     { type := some 7, bbox := [0, 0, 5, 5], lines := [],
       image := none, image_bytes := none }]⟩

def c9Doc : Document := ⟨[c9Page]⟩

/-- Witness for C9 at a one-page document with a text block, an image block
with a payload, a payload-less image block and an opaque-type block. -/
theorem c9_single_page_witness :
    c9Doc.pages = [c9Page] ∧
      remove_repeated_blocks c9Doc (95 / 100) (8 / 10) (95 / 100) 3 (8 / 10) =
        ⟨[{ c9Page with blocks := c9Page.blocks.filter fun blk =>
            !(blk.type = some 0 || (blk.type = some 1 &&
              !(effImage blk = ""))) }]⟩ :=
  ⟨rfl, c9_single_page c9Doc c9Page rfl⟩

end PdfRedundancy
